import Mathlib

/-!
Verification of the `const`, `enum` and `type` keywords of the jsonschema package.

Shallow embedding of `keywords_standard.go`.

* Go `string` / `[]byte` values are Lean `String`s; `len` is the UTF-8 byte
  length and `s[:hi]` is a checked byte slice (`none` stands for the run-time
  panic "slice bounds out of range").
* A decoded instance (`interface{}` as produced by `encoding/json`) is a
  `Value`; a `float64` is represented by the rational number it denotes.
* `errs *[]KeyError` is passed explicitly: every `ValidateFromContext` takes the
  accumulator and returns the new accumulator.
* `encoding/json` and `InvalidValueString` are outside `keywords_standard.go`;
  they are the two fields of `Env`.
-/

set_option autoImplicit false

namespace Jsonschema

/-! ## Values -/

/-- The dynamic values `encoding/json` stores in an `interface{}`:
`nil`, `bool`, `float64`, `string`, `[]interface{}`, `map[string]interface{}`.
A map is listed as its key/value entries. -/
inductive Value where
  | null
  | bool (b : Bool)
  | num (f : ℚ)
  | str (s : String)
  | arr (xs : List Value)
  | obj (kvs : List (String × Value))

/-- The subset of `reflect.Kind` needed to read the `switch` of `DataType`. -/
inductive Kind where
  | Invalid | Bool | Int | Int64 | Uint | Float32 | Float64 | Complex128
  | Array | Chan | Func | Interface | Map | Pointer | Slice | String | Struct
  deriving DecidableEq, Repr

namespace Value

/-- The test `data == nil` on an `interface{}`. -/
def isNil : Value → Bool
  | null => true
  | _ => false

/-- The result of `reflect.TypeOf(data).Kind()` for a non-nil value. -/
def kind : Value → Kind
  | null => Kind.Invalid
  | bool _ => Kind.Bool
  | num _ => Kind.Float64
  | str _ => Kind.String
  | arr _ => Kind.Slice
  | obj _ => Kind.Map

/-- The result of `reflect.ValueOf(data).Float()`. -/
def Float : Value → ℚ
  | num f => f
  | _ => 0

/-- The type assertion `data.(string)`. -/
def asString : Value → String
  | str s => s
  | _ => ""

/-- Map indexing `m[k]` on the entries of a map. -/
def lookup (k : String) : List (String × Value) → Option Value
  | [] => none
  | (k2, v) :: tl => if k2 = k then some v else lookup k tl

mutual
/-- The function `reflect.DeepEqual` on decoded JSON values: equal dynamic types,
`==` on scalars, element-wise on slices of equal length, and on maps equal
length plus a deep-equal entry in the second map for every key of the first. -/
def deepEqual : Value → Value → Bool
  | null, null => true
  | bool a, bool b => a == b
  | num a, num b => decide (a = b)
  | str a, str b => a == b
  | arr xs, arr ys => deepEqualList xs ys
  | obj m1, obj m2 => m1.length == m2.length && deepEqualMap m1 m2
  | _, _ => false
/-- Element-wise comparison of two slices. -/
def deepEqualList : List Value → List Value → Bool
  | [], [] => true
  | x :: xs, y :: ys => deepEqual x y && deepEqualList xs ys
  | _, _ => false
/-- Every entry of the first map has a deep-equal entry in the second. -/
def deepEqualMap : List (String × Value) → List (String × Value) → Bool
  | [], _ => true
  | (k, v) :: tl, m2 =>
    (match lookup k m2 with
     | some w => deepEqual v w
     | none => false) && deepEqualMap tl m2
end

mutual
/-- Well-formed decoded values: the keys of every map are pairwise distinct. -/
def distinctKeys : Value → Bool
  | arr xs => distinctKeysList xs
  | obj kvs => decide ((kvs.map Prod.fst).Nodup) && distinctKeysMap kvs
  | _ => true
/-- All elements of a slice are well formed. -/
def distinctKeysList : List Value → Bool
  | [] => true
  | x :: xs => distinctKeys x && distinctKeysList xs
/-- All values of a map are well formed. -/
def distinctKeysMap : List (String × Value) → Bool
  | [] => true
  | (_, v) :: tl => distinctKeys v && distinctKeysMap tl
end

end Value

/-! ## Go strings -/

/-- The raw bytes of a JSON text (`json.RawMessage`). -/
abbrev RawMessage := String

/-- The Go type `string`, under a name that stays usable next to the methods
called `String`. -/
abbrev GoString := String

/-- Go `len(s)`: the number of bytes of `s`. -/
def goLen (s : String) : Int := (s.utf8ByteSize : Int)

/-- Go `s[:hi]`; `none` is the panic raised when `hi` is out of range. -/
def goSliceTo (s : String) (hi : Int) : Option String :=
  if 0 ≤ hi ∧ hi ≤ goLen s then some (s.extract 0 ⟨hi.toNat⟩) else none

/-! ## Collaborators outside `keywords_standard.go` -/

/-- The two functions the keywords call that are defined elsewhere:
`json.Unmarshal(raw, &v)` with `v` an `interface{}` (an error message when `raw`
is not a JSON text) and `InvalidValueString`, the rendering of a value used in
messages. -/
structure Env where
  jsonUnmarshal : RawMessage → Except String Value
  InvalidValueString : Value → String

/-- Modelled from the spec: the KeyError record, whose declaration is not in
the sources at hand; the spec gives it a property path and a message. -/
structure KeyError where
  PropertyPath : String
  Message : String
  deriving DecidableEq, Repr

/-- Modelled from the spec: the validation context, whose declaration is not in
the sources at hand; of its fields the keywords read the instance under test and
the path taken to reach it. -/
structure SchemaContext where
  Instance : Value
  InstanceLocation : String

/-- Modelled from the spec: the helper AddErrorCtx, whose body is not in the
sources at hand; it appends one KeyError carrying the context path and the
message to the accumulator. -/
def AddErrorCtx (errs : List KeyError) (schCtx : SchemaContext) (m : String) : List KeyError :=
  errs ++ [{ PropertyPath := schCtx.InstanceLocation, Message := m }]

/-! ## const -/

/-- The declaration `type Const json.RawMessage`. -/
abbrev Const := RawMessage

/-- The method `Const.String`. -/
def Const.String (c : Const) : String := c

/-- The method `Const.ValidateFromContext`. -/
def Const.ValidateFromContext (env : Env) (c : Const) (schCtx : SchemaContext)
    (errs : List KeyError) : List KeyError :=
  match env.jsonUnmarshal c with
  | .error err => AddErrorCtx errs schCtx err
  | .ok con =>
    if !Value.deepEqual con schCtx.Instance then
      AddErrorCtx errs schCtx ("must equal " ++ env.InvalidValueString con)
    else errs

/-! ## enum -/

/-- The declaration `type Enum []Const`. -/
abbrev Enum := List Const

/-- The method `Enum.String`: the loop appends every constant followed by `", "`
to `"["`, then the last two bytes are cut off and `"]"` is appended. -/
def Enum.String (e : Enum) : Option String :=
  let str := e.foldl (fun str c => str ++ (Const.String c ++ ", ")) "["
  (goSliceTo str (goLen str - 2)).map (fun s => s ++ "]")

/-- The `for` loop of `Enum.ValidateFromContext`: `true` when some iteration
executes `return`, that is when some constant validates into an empty `test`. -/
def Enum.validateLoop (env : Env) (schCtx : SchemaContext) : List Const → Bool
  | [] => false
  | v :: rest =>
    let test := Const.ValidateFromContext env v schCtx []
    if test.length == 0 then true else Enum.validateLoop env schCtx rest

/-- The method `Enum.ValidateFromContext`; `none` is a run-time panic. -/
def Enum.ValidateFromContext (env : Env) (e : Enum) (schCtx : SchemaContext)
    (errs : List KeyError) : Option (List KeyError) :=
  if Enum.validateLoop env schCtx e then some errs
  else
    match Enum.String e with
    | none => none
    | some s => some (AddErrorCtx errs schCtx ("should be one of " ++ s))

/-! ## Numeric conversions -/

/-- Go conversion `int(x)` of a `float64` to the 64-bit `int`: the fraction is
discarded (truncation towards zero) when the result fits; for a value that does
not fit the result is implementation-dependent, and the value given here is the
one amd64 produces, `-2^63`. -/
def float64ToInt (x : ℚ) : Int :=
  if -(2 : ℚ) ^ 63 ≤ x ∧ x < (2 : ℚ) ^ 63 then
    (if 0 ≤ x then ⌊x⌋ else ⌈x⌉)
  else -(2 : Int) ^ 63

/-- The number of low bits a natural number has beyond 53 significant bits,
counted up to `fuel`; eleven steps cover every magnitude an `int` can have. -/
def excessBits : Nat → Nat → Nat
  | 0, _ => 0
  | fuel + 1, n => if n < 2 ^ 53 then 0 else excessBits fuel (n / 2) + 1

/-- Rounding of the magnitude of an `int` to 53 significant bits, to nearest,
ties to even. -/
def roundNat53 (n : Nat) : Nat :=
  let k := excessBits 11 n
  if k = 0 then n
  else
    let q := n / 2 ^ k
    let r := n % 2 ^ k
    let half := 2 ^ (k - 1)
    if half < r ∨ (r = half ∧ q % 2 = 1) then (q + 1) * 2 ^ k else q * 2 ^ k

/-- Go conversion `float64(i)` of an `int`: the nearest `float64`. -/
def float64OfInt (i : Int) : ℚ :=
  if i < 0 then -((roundNat53 i.natAbs : Nat) : ℚ) else ((roundNat53 i.natAbs : Nat) : ℚ)

/-! ## type -/

/-- The variable `primitiveTypes` as its list of entries. -/
def primitiveTypesEntries : List (String × Bool) :=
  [("null", true), ("boolean", true), ("object", true), ("array", true),
   ("number", true), ("string", true), ("integer", true)]

/-- The map index expression `primitiveTypes[pr]`, `false` for an absent key. -/
def primitiveTypes (pr : String) : Bool :=
  (primitiveTypesEntries.lookup pr).getD false

/-- The function `DataType`. -/
def DataType (data : Value) : String :=
  if data.isNil then "null"
  else
    match data.kind with
    | Kind.Bool => "boolean"
    | Kind.Float64 =>
      let number := data.Float
      if float64OfInt (float64ToInt number) = number then "integer" else "number"
    | Kind.String => "string"
    | Kind.Array | Kind.Slice => "array"
    | Kind.Map | Kind.Struct => "object"
    | _ => "unknown"

/-- The function `strconv.ParseBool`; `none` is its syntax error. -/
def ParseBool (str : String) : Option Bool :=
  if str = "1" ∨ str = "t" ∨ str = "T" ∨ str = "true" ∨ str = "TRUE" ∨ str = "True" then some true
  else if str = "0" ∨ str = "f" ∨ str = "F" ∨ str = "false" ∨ str = "FALSE" ∨ str = "False" then
    some false
  else none

/-- The function `DataTypeWithHint`. -/
def DataTypeWithHint (data : Value) (hint : String) : String :=
  let dt := DataType data
  if dt = "string" ∧ hint = "boolean" ∧ (ParseBool data.asString).isSome then "boolean"
  else if dt = "integer" ∧ hint = "number" then "number"
  else dt

/-- The declaration `type Type struct`. -/
structure TypeKeyword where
  strVal : Bool
  vals : List String
  deriving DecidableEq, Repr

/-- The first `for` loop of `Type.ValidateFromContext`: `true` when some
iteration executes `return`. -/
def TypeKeyword.validateLoop (schCtx : SchemaContext) (jt : String) : List String → Bool
  | [] => false
  | typestr :: rest =>
    if jt = typestr ∨ (jt = "integer" ∧ typestr = "number") then true
    else if jt = "string" ∧ (typestr = "boolean" ∨ typestr = "number" ∨ typestr = "integer") then
      if DataTypeWithHint schCtx.Instance typestr = typestr then true
      else TypeKeyword.validateLoop schCtx jt rest
    else TypeKeyword.validateLoop schCtx jt rest

/-- The method `Type.ValidateFromContext`; `none` is a run-time panic. -/
def TypeKeyword.ValidateFromContext (t : TypeKeyword) (schCtx : SchemaContext)
    (errs : List KeyError) : Option (List KeyError) :=
  let jt := DataType schCtx.Instance
  if TypeKeyword.validateLoop schCtx jt t.vals then some errs
  else if h : t.vals.length = 1 then
    some (AddErrorCtx errs schCtx ("type should be " ++ t.vals.get ⟨0, by omega⟩))
  else
    let str := t.vals.foldl (fun str ts => str ++ (ts ++ ",")) ""
    match goSliceTo str (goLen str - 1) with
    | none => none
    | some s => some (AddErrorCtx errs schCtx ("type should be one of: " ++ s))

/-- The call `json.Unmarshal(data, &single)` with `single` a `string` holding
`cur`: a JSON string is stored, `null` leaves the target as it is, any other
text is an error. -/
def Env.unmarshalString (env : Env) (data : RawMessage) (cur : String) : Except String String :=
  match env.jsonUnmarshal data with
  | .error e => .error e
  | .ok (Value.str s) => .ok s
  | .ok Value.null => .ok cur
  | .ok _ => .error "json: cannot unmarshal into Go value of type string"

/-- One element of a JSON array decoded into a `string` slot. -/
def unmarshalStringElem : Value → Except String String
  | Value.str s => .ok s
  | Value.null => .ok ""
  | _ => .error "json: cannot unmarshal into Go value of type string"

/-- The call `json.Unmarshal(data, &set)` with `set` a nil `[]string`. -/
def Env.unmarshalStrings (env : Env) (data : RawMessage) : Except String (List String) :=
  match env.jsonUnmarshal data with
  | .error e => .error e
  | .ok (Value.arr xs) => xs.mapM unmarshalStringElem
  | .ok Value.null => .ok []
  | .ok _ => .error "json: cannot unmarshal into Go value of type []string"

/-- The second half of `Type.UnmarshalJSON`: the loop over `t.vals` that returns
an error at the first name that is not a primitive type. -/
def TypeKeyword.checkVals : List String → Option String
  | [] => none
  | pr :: rest =>
    if !primitiveTypes pr then some ("\"" ++ pr ++ "\" is not a valid type")
    else TypeKeyword.checkVals rest

/-- The method `Type.UnmarshalJSON`: the receiver after the call and the
returned error (`none` for `nil`). -/
def TypeKeyword.UnmarshalJSON (env : Env) (t : TypeKeyword) (data : RawMessage) :
    TypeKeyword × Option String :=
  match env.unmarshalString data "" with
  | .ok single =>
    let t1 : TypeKeyword := { strVal := true, vals := [single] }
    (t1, TypeKeyword.checkVals t1.vals)
  | .error _ =>
    match env.unmarshalStrings data with
    | .ok set =>
      let t1 : TypeKeyword := { strVal := false, vals := set }
      (t1, TypeKeyword.checkVals t1.vals)
    | .error err => (t, some err)

/-! ## Serialization of const, enum and type -/

/-- The escaping `json.Marshal` applies to one character of a text returned by a
`Marshaler`: `<`, `>`, `&` and the line separators U+2028, U+2029 are written as
`\u` escapes, every other character is kept. -/
def htmlEscape (c : Char) : List Char :=
  if c = '<' then [Char.ofNat 92, 'u', '0', '0', '3', 'c']
  else if c = '>' then [Char.ofNat 92, 'u', '0', '0', '3', 'e']
  else if c = '&' then [Char.ofNat 92, 'u', '0', '0', '2', '6']
  else if c = Char.ofNat 0x2028 then [Char.ofNat 92, 'u', '2', '0', '2', '8']
  else if c = Char.ofNat 0x2029 then [Char.ofNat 92, 'u', '2', '0', '2', '9']
  else [c]

/-- The compaction `json.Marshal` applies to a valid JSON text returned by a
`Marshaler`: the scanner state is whether the position is inside a string
(`inStr`) and whether the previous character was a backslash (`esc`); space,
tab, line feed and carriage return outside strings are dropped, everything else
is copied through `htmlEscape`. -/
def compactChars : Bool → Bool → List Char → List Char
  | _, _, [] => []
  | false, _, c :: cs =>
    if c = ' ' ∨ c = Char.ofNat 9 ∨ c = Char.ofNat 10 ∨ c = Char.ofNat 13 then
      compactChars false false cs
    else if c = Char.ofNat 34 then c :: compactChars true false cs
    else htmlEscape c ++ compactChars false false cs
  | true, true, c :: cs => htmlEscape c ++ compactChars true false cs
  | true, false, c :: cs =>
    if c = Char.ofNat 92 then c :: compactChars true true cs
    else if c = Char.ofNat 34 then c :: compactChars false false cs
    else htmlEscape c ++ compactChars true false cs

/-- The compact form of a JSON text. -/
def jsonCompact (raw : RawMessage) : RawMessage :=
  String.mk (compactChars false false raw.data)

/-- The call `json.Marshal(json.RawMessage(c))` of `encoding/json`, with the
syntax check of the library as the parameter `valid`: a text that is not valid
JSON is an error, a valid text is returned in compact form. -/
def jsonMarshalRaw (valid : RawMessage → Bool) (c : RawMessage) : Except String RawMessage :=
  if valid c then .ok (jsonCompact c)
  else .error "json: error calling MarshalJSON for type json.RawMessage"

/-- The method `Const.MarshalJSON`. -/
def Const.MarshalJSON (valid : RawMessage → Bool) (c : Const) : Except GoString RawMessage :=
  jsonMarshalRaw valid c

/-- The method `Const.UnmarshalJSON`: the receiver after the call and the
returned error (`none` for `nil`). -/
def Const.UnmarshalJSON (_c : Const) (data : RawMessage) : Const × Option GoString :=
  (data, none)

/-- Serializing then parsing a const: `none` when `MarshalJSON` fails. -/
def Const.roundTrip (valid : RawMessage → Bool) (c : Const) : Option Const :=
  match Const.MarshalJSON valid c with
  | .error _ => none
  | .ok data => some (Const.UnmarshalJSON "" data).1

/-- Serializing then parsing an enum. `Enum` has no methods of its own for this:
`encoding/json` writes the slice element by element through `Const.MarshalJSON`
and reads it back element by element through `Const.UnmarshalJSON`; `none` when
some element fails to serialize. -/
def Enum.roundTrip (valid : RawMessage → Bool) : Enum → Option Enum
  | [] => some []
  | c :: rest =>
    match Const.roundTrip valid c, Enum.roundTrip valid rest with
    | some c2, some rest2 => some (c2 :: rest2)
    | _, _ => none

/-- The method `Type.MarshalJSON` with the library call `json.Marshal` as the
parameter `jsonMarshal`: a declaration read from a single string is written as
that string, otherwise the list of names is written as an array; `none` is the
panic of `t.vals[0]` on an empty list. -/
def TypeKeyword.MarshalJSON (jsonMarshal : Value → RawMessage) (t : TypeKeyword) :
    Option RawMessage :=
  if t.strVal then
    match t.vals with
    | [] => none
    | x :: _ => some (jsonMarshal (Value.str x))
  else some (jsonMarshal (Value.arr (t.vals.map Value.str)))

/-- The value `Type.MarshalJSON` hands to `json.Marshal`: the single name of a
declaration read from a string, the array of names otherwise. -/
def TypeKeyword.jsonValue (t : TypeKeyword) : Value :=
  if t.strVal then Value.str (t.vals.headD "") else Value.arr (t.vals.map Value.str)

/-! ## JSON-Pointer access into enum and type -/

/-- The value of a run of decimal digits, most significant first, after the
digits already read amount to `acc`; `none` when a character is not a digit. -/
def digitsValue : Nat → List Char → Option Nat
  | acc, [] => some acc
  | acc, ch :: rest =>
    if '0' ≤ ch ∧ ch ≤ '9' then digitsValue (acc * 10 + (ch.toNat - '0'.toNat)) rest
    else none

/-- The function `strconv.Atoi` for the 64-bit `int`: an optional sign followed
by at least one decimal digit, the value within the range of `int`; `none` is
its error. -/
def Atoi (s : String) : Option Int :=
  let signed : Bool × List Char :=
    match s.data with
    | [] => (false, [])
    | c :: cs => if c = '-' then (true, cs) else if c = '+' then (false, cs) else (false, c :: cs)
  match signed.2 with
  | [] => none
  | d :: ds =>
    match digitsValue 0 (d :: ds) with
    | none => none
    | some n =>
      let v : Int := if signed.1 then -(n : Int) else (n : Int)
      if -(2 : Int) ^ 63 ≤ v ∧ v < (2 : Int) ^ 63 then some v else none

/-- The indexing `xs[idx]` of a slice by an `int`; `none` is the panic "index out
of range". -/
def goIndex {α : Type} (xs : List α) (idx : Int) : Option α :=
  if 0 ≤ idx ∧ idx < (xs.length : Int) then xs[idx.toNat]? else none

/-- The method `Enum.JSONProp`: the outer `none` is a run-time panic, `some none`
is the result `nil`, `some (some c)` is a constant. -/
def Enum.JSONProp (e : Enum) (name : GoString) : Option (Option Const) :=
  match Atoi name with
  | none => some none
  | some idx =>
    if idx > (e.length : Int) ∨ idx < 0 then some none
    else (goIndex e idx).map some

/-- The method `Type.JSONProp`, with the same reading of the result. -/
def TypeKeyword.JSONProp (t : TypeKeyword) (name : String) : Option (Option String) :=
  match Atoi name with
  | none => some none
  | some idx =>
    if idx > (t.vals.length : Int) ∨ idx < 0 then some none
    else (goIndex t.vals idx).map some

/-! ## Loader registry -/

/-- Modelled from the spec: the mapping a Loader Registry owns, from URI scheme
to loader; the loader functions are values of an arbitrary type `L`, and a
scheme without entry maps to `none` (the `found = false` answer of `get`). -/
abbrev LoaderLookup (L : Type) := String → Option L

/-- Modelled from the spec: the registries that exist at some moment. The
program handles a registry through a reference, here its position in the list,
so that two references may or may not denote the same mutable mapping. -/
structure RegistryStore (L : Type) where
  cells : List (LoaderLookup L)

/-- Modelled from the spec: creation of a Loader Registry without entries; the
new store and the reference to the new registry. -/
def NewLoaderRegistry {L : Type} (st : RegistryStore L) : RegistryStore L × Nat :=
  ({ cells := st.cells ++ [fun _ => none] }, st.cells.length)

/-- Modelled from the spec: the operation `get(scheme) -> (fn, found)` on the
registry referenced by `r`. -/
def LoaderRegistry.Get {L : Type} (st : RegistryStore L) (r : Nat) (scheme : String) : Option L :=
  match st.cells[r]? with
  | some m => m scheme
  | none => none

/-- Modelled from the spec: the operation `register(scheme, fn)` on the registry
referenced by `r`; it overwrites any existing entry for the scheme. -/
def LoaderRegistry.Register {L : Type} (st : RegistryStore L) (r : Nat) (scheme : String)
    (fn : L) : RegistryStore L :=
  match st.cells[r]? with
  | some m => { cells := st.cells.set r (fun s => if s = scheme then some fn else m s) }
  | none => st

/-- Modelled from the spec: the operation `copy()` on the registry referenced by
`r`: a new registry whose initial contents equal those of the origin; the new
store and the reference to the copy. -/
def LoaderRegistry.Copy {L : Type} (st : RegistryStore L) (r : Nat) : RegistryStore L × Nat :=
  match st.cells[r]? with
  | some m => ({ cells := st.cells ++ [m] }, st.cells.length)
  | none => ({ cells := st.cells ++ [fun _ => none] }, st.cells.length)

/-! ## Auxiliary predicates -/

/-- The condition under which one iteration of the loop of
`Type.ValidateFromContext` returns: the two tests of the loop body. -/
def TypeKeyword.accepts (inst : Value) (typestr : String) : Prop :=
  DataType inst = typestr ∨ (DataType inst = "integer" ∧ typestr = "number") ∨
    (DataType inst = "string" ∧
      (typestr = "boolean" ∨ typestr = "number" ∨ typestr = "integer") ∧
      DataTypeWithHint inst typestr = typestr)

/-! ## Vocabulary and inputs of `type`, as the specification words them -/

/-- The fixed vocabulary of type names. -/
def typeVocabulary : List String :=
  ["null", "boolean", "object", "array", "number", "string", "integer"]

/-- A declaration of the `type` keyword: a JSON string or a JSON array of
strings. -/
inductive TypeDecl where
  | single (name : String)
  | set (names : List String)

/-- The JSON value of a declaration. -/
def TypeDecl.toValue : TypeDecl → Value
  | TypeDecl.single name => Value.str name
  | TypeDecl.set names => Value.arr (names.map Value.str)

/-- The declared names, in declared order. -/
def TypeDecl.names : TypeDecl → List String
  | TypeDecl.single name => [name]
  | TypeDecl.set names => names

/-- The rational numbers that are finite `float64` values: `m * 2 ^ e` with a
significand below `2 ^ 53` and an exponent between `-1074` and `971`. -/
def IsFloat64 (x : ℚ) : Prop :=
  ∃ m e : Int, m.natAbs < 2 ^ 53 ∧ -1074 ≤ e ∧ e ≤ 971 ∧ x = (m : ℚ) * (2 : ℚ) ^ e

/-! ## Sample collaborators used to evaluate the definitions -/

/-- A decoder for a handful of JSON texts. -/
def sampleUnmarshal (raw : RawMessage) : Except String Value :=
  if raw = "null" then .ok Value.null
  else if raw = "true" then .ok (Value.bool true)
  else if raw = "false" then .ok (Value.bool false)
  else if raw = "1" then .ok (Value.num 1)
  else if raw = "2" then .ok (Value.num 2)
  else if raw = "1.5" then .ok (Value.num (3 / 2))
  else if raw = "\"a\"" then .ok (Value.str "a")
  else if raw = "\"boolean\"" then .ok (Value.str "boolean")
  else if raw = "\"float\"" then .ok (Value.str "float")
  else if raw = "[\"null\", \"string\"]" then .ok (Value.arr [Value.str "null", Value.str "string"])
  else if raw = "[]" then .ok (Value.arr [])
  else if raw = "[1, 2]" then .ok (Value.arr [Value.num 1, Value.num 2])
  else if raw = "[1,2]" then .ok (Value.arr [Value.num 1, Value.num 2])
  else if raw = "\"<\"" then .ok (Value.str "<")
  else if raw = "[\"null\",\"string\"]" then
    .ok (Value.arr [Value.str "null", Value.str "string"])
  else .error "invalid character"

/-- A rendering for scalar values. -/
def sampleInvalidValueString : Value → String
  | Value.null => "null"
  | Value.bool true => "true"
  | Value.bool false => "false"
  | Value.str s => "\"" ++ s ++ "\""
  | _ => "..."

/-- The sample environment. -/
def sampleEnv : Env :=
  { jsonUnmarshal := sampleUnmarshal, InvalidValueString := sampleInvalidValueString }


/-- The sample syntax check: the texts the sample decoder reads. -/
def sampleValid (raw : RawMessage) : Bool :=
  match sampleUnmarshal raw with
  | .ok _ => true
  | .error _ => false

/-- A sample of `json.Marshal` on strings and arrays of strings without
characters that need escaping. -/
def sampleMarshal : Value → RawMessage
  | Value.str s => "\"" ++ s ++ "\""
  | Value.arr xs =>
    "[" ++ ",".intercalate (xs.map (fun x => "\"" ++ x.asString ++ "\"")) ++ "]"
  | _ => "null"

/-- The registry of the copy test: a new registry with `dummyLoader` registered
under the scheme `dummy`; loaders are represented by their names. -/
def sampleRegistryStore : RegistryStore GoString :=
  LoaderRegistry.Register (NewLoaderRegistry (RegistryStore.mk [])).1
    (NewLoaderRegistry (RegistryStore.mk ([] : List (LoaderLookup GoString)))).2
    "dummy" "dummyLoader"

/-! # Theorems -/

/-! ## Go string slicing -/

theorem goLen_append (a b : String) : goLen (a ++ b) = goLen a + goLen b := by
  cases a with
  | mk as =>
    cases b with
    | mk bs =>
      show ((String.utf8ByteSize (String.mk as ++ String.mk bs) : Nat) : Int) = _
      have : (String.mk as ++ String.mk bs) = String.mk (as ++ bs) := rfl
      rw [this]
      simp [goLen, String.utf8ByteSize_mk, String.utf8Len_append]

theorem goLen_nonneg (a : String) : 0 ≤ goLen a := by
  unfold goLen; exact Int.natCast_nonneg _

/-- Cutting a suffix off by its byte length gives back the prefix. -/
theorem goSliceTo_append (a b : String) (k : Int) (hk : goLen b = k) :
    goSliceTo (a ++ b) (goLen (a ++ b) - k) = some a := by
  have hlen : goLen (a ++ b) - k = goLen a := by rw [goLen_append, hk]; ring
  rw [hlen]
  unfold goSliceTo
  have h0 := goLen_nonneg a
  have hb := goLen_nonneg b
  have h1 : goLen a ≤ goLen (a ++ b) := by rw [goLen_append]; omega
  rw [if_pos ⟨h0, h1⟩]
  congr 1
  cases a with
  | mk as =>
    cases b with
    | mk bs =>
      have hx : (String.mk as ++ String.mk bs) = String.mk ([] ++ as ++ bs) := rfl
      rw [hx]
      have hy : (goLen (String.mk as)).toNat = String.utf8Len [] + String.utf8Len as := by
        simp [goLen, String.utf8ByteSize_mk]
      rw [hy]
      exact String.extract_of_valid [] as bs

/-- The accumulation loop `str += x + sep` over a non-empty list yields the
start value, the elements joined by `sep`, and one trailing `sep`. -/
theorem foldl_append_sep (sep : String) (rest : List String) (acc c : String) :
    (c :: rest).foldl (fun str x => str ++ (x ++ sep)) acc
      = acc ++ sep.intercalate (c :: rest) ++ sep := by
  have hgo : ∀ (l : List String) (a b : String),
      String.intercalate.go (a ++ b) sep l = a ++ String.intercalate.go b sep l := by
    intro l
    induction l with
    | nil => intro a b; rfl
    | cons x xs ih =>
      intro a b
      simp only [String.intercalate.go]
      rw [String.append_assoc, String.append_assoc, ih, ← String.append_assoc]
  induction rest generalizing acc c with
  | nil =>
    simp only [List.foldl_cons, List.foldl_nil, String.intercalate, String.intercalate.go]
    rw [String.append_assoc]
  | cons x xs ih =>
    rw [List.foldl_cons, ih]
    simp only [String.intercalate, String.intercalate.go]
    rw [hgo xs (c ++ sep) x]
    simp only [String.append_assoc]

/-! ## Deep equality -/

namespace Value

/-- In a map with pairwise distinct keys, indexing by the key of an entry gives
the value of that entry. -/
theorem lookup_of_mem (m : List (String × Value)) (hnd : (m.map Prod.fst).Nodup)
    (k : String) (v : Value) (hmem : (k, v) ∈ m) : lookup k m = some v := by
  induction m with
  | nil => cases hmem
  | cons p tl ih =>
    obtain ⟨k2, v2⟩ := p
    simp only [List.map_cons, List.nodup_cons] at hnd
    simp only [lookup]
    rcases List.mem_cons.1 hmem with h | h
    · cases h
      simp
    · have hne : k2 ≠ k := by
        intro he
        subst he
        exact hnd.1 (List.mem_map.2 ⟨(k2, v), h, rfl⟩)
      rw [if_neg hne]
      exact ih hnd.2 h

mutual
/-- A decoded value is deep-equal to itself. -/
theorem deepEqual_refl : (v : Value) → distinctKeys v = true → deepEqual v v = true
  | null, _ => rfl
  | bool b, _ => by simp [deepEqual]
  | num f, _ => by simp [deepEqual]
  | str s, _ => by simp [deepEqual]
  | arr xs, h => by
    simp only [deepEqual]
    exact deepEqualList_refl xs (by simpa [distinctKeys] using h)
  | obj kvs, h => by
    simp only [distinctKeys, Bool.and_eq_true, decide_eq_true_eq] at h
    simp only [deepEqual, beq_self_eq_true, Bool.true_and]
    exact deepEqualMap_sub kvs h.2 kvs (fun k v hm => lookup_of_mem kvs h.1 k v hm)
/-- A slice is element-wise deep-equal to itself. -/
theorem deepEqualList_refl : (xs : List Value) → distinctKeysList xs = true →
    deepEqualList xs xs = true
  | [], _ => rfl
  | x :: xs, h => by
    simp only [distinctKeysList, Bool.and_eq_true] at h
    simp only [deepEqualList, Bool.and_eq_true]
    exact ⟨deepEqual_refl x h.1, deepEqualList_refl xs h.2⟩
/-- Entries that all occur in a second map are matched by it. -/
theorem deepEqualMap_sub : (tl : List (String × Value)) → distinctKeysMap tl = true →
    (m2 : List (String × Value)) → (∀ k v, (k, v) ∈ tl → lookup k m2 = some v) →
    deepEqualMap tl m2 = true
  | [], _, _, _ => rfl
  | (k, v) :: tl, h, m2, hsub => by
    simp only [distinctKeysMap, Bool.and_eq_true] at h
    simp only [deepEqualMap, Bool.and_eq_true]
    rw [hsub k v (List.mem_cons_self _ _)]
    exact ⟨deepEqual_refl v h.1,
      deepEqualMap_sub tl h.2 m2 (fun k2 v2 hm => hsub k2 v2 (List.mem_cons_of_mem _ hm))⟩
end
end Value

/-! ## const and enum -/

theorem AddErrorCtx_ne (errs : List KeyError) (schCtx : SchemaContext) (m : String) :
    AddErrorCtx errs schCtx m ≠ errs := by
  intro h
  have := congrArg List.length h
  simp [AddErrorCtx] at this

theorem some_append_one_ne (errs : List KeyError) (e : KeyError) :
    some (errs ++ [e]) ≠ some errs := by
  intro h
  have := congrArg (fun o => (o.getD []).length) h
  simp at this

theorem Const_validate_nil_iff (env : Env) (c : Const) (schCtx : SchemaContext) :
    Const.ValidateFromContext env c schCtx [] = [] ↔
      ∃ con, env.jsonUnmarshal c = .ok con ∧ Value.deepEqual con schCtx.Instance = true := by
  unfold Const.ValidateFromContext
  cases hdec : env.jsonUnmarshal c with
  | error err => simp [AddErrorCtx]
  | ok con =>
    cases hde : Value.deepEqual con schCtx.Instance <;> simp [AddErrorCtx, hde]

/-- A constant validates the value it decodes to. -/
theorem Const_validate_self (env : Env) (c : Const) (con : Value) (path : String)
    (errs : List KeyError) (hc : env.jsonUnmarshal c = .ok con)
    (hwf : Value.distinctKeys con = true) :
    Const.ValidateFromContext env c ⟨con, path⟩ errs = errs := by
  unfold Const.ValidateFromContext
  rw [hc]
  simp [Value.deepEqual_refl con hwf]

theorem Enum_validateLoop_iff (env : Env) (schCtx : SchemaContext) (e : Enum) :
    Enum.validateLoop env schCtx e = true ↔
      ∃ c ∈ e, Const.ValidateFromContext env c schCtx [] = [] := by
  induction e with
  | nil => simp [Enum.validateLoop]
  | cons v rest ih =>
    simp only [Enum.validateLoop, List.mem_cons, exists_eq_or_imp]
    by_cases h : Const.ValidateFromContext env v schCtx [] = []
    · simp [h]
    · have hl : ((Const.ValidateFromContext env v schCtx []).length == 0) = false := by
        simpa using h
      simp [hl, h, ih]

theorem Enum_String_cons (c : Const) (rest : List Const) :
    Enum.String (c :: rest) = some ("[" ++ ", ".intercalate (c :: rest) ++ "]") := by
  unfold Enum.String
  simp only [Const.String]
  rw [foldl_append_sep ", " rest "[" c, goSliceTo_append _ _ 2 (by decide)]
  rfl

/-- C1: for a constant `c` whose raw bytes decode to the value `con`,
`Const.ValidateFromContext` leaves the error list as it is when the instance is
deep-equal to `con`, and appends exactly one error with message `must equal `
followed by the rendered constant when it is not; so const validation fails iff
the instance is not deep-equal to the parsed constant. -/
theorem C1_const_validate (env : Env) (c : Const) (con : Value) (schCtx : SchemaContext)
    (errs : List KeyError) (hc : env.jsonUnmarshal c = .ok con) :
    (Value.deepEqual con schCtx.Instance = true →
        Const.ValidateFromContext env c schCtx errs = errs) ∧
    (Value.deepEqual con schCtx.Instance = false →
        Const.ValidateFromContext env c schCtx errs =
          errs ++ [{ PropertyPath := schCtx.InstanceLocation,
                     Message := "must equal " ++ env.InvalidValueString con }]) ∧
    (Const.ValidateFromContext env c schCtx errs ≠ errs ↔
        Value.deepEqual con schCtx.Instance = false) := by
  unfold Const.ValidateFromContext
  rw [hc]
  cases hde : Value.deepEqual con schCtx.Instance <;> simp [AddErrorCtx, hde]

/-- C1 at the constant `1` and the instance `"a"`. -/
theorem C1_const_validate_witness :
    (Value.deepEqual (Value.num 1) (Value.str "a") = true →
        Const.ValidateFromContext sampleEnv "1" ⟨Value.str "a", "/x"⟩ [] = []) ∧
    (Value.deepEqual (Value.num 1) (Value.str "a") = false →
        Const.ValidateFromContext sampleEnv "1" ⟨Value.str "a", "/x"⟩ [] =
          [] ++ [{ PropertyPath := "/x",
                   Message := "must equal " ++ sampleEnv.InvalidValueString (Value.num 1) }]) ∧
    (Const.ValidateFromContext sampleEnv "1" ⟨Value.str "a", "/x"⟩ [] ≠ [] ↔
        Value.deepEqual (Value.num 1) (Value.str "a") = false) :=
  C1_const_validate sampleEnv "1" (Value.num 1) ⟨Value.str "a", "/x"⟩ [] rfl

/-- C2: `Enum.ValidateFromContext` appends no error iff some listed constant
decodes to a value deep-equal to the instance, and that is the case iff
`Const.ValidateFromContext` reports no error for some member of the list. The
statement holds for every list, in particular for every non-empty list of valid
JSON constants. -/
theorem C2_enum_passes_iff (env : Env) (e : Enum) (schCtx : SchemaContext)
    (errs : List KeyError) :
    (Enum.ValidateFromContext env e schCtx errs = some errs ↔
        ∃ c ∈ e, ∃ con, env.jsonUnmarshal c = .ok con ∧
          Value.deepEqual con schCtx.Instance = true) ∧
    (Enum.ValidateFromContext env e schCtx errs = some errs ↔
        ∃ c ∈ e, Const.ValidateFromContext env c schCtx [] = []) := by
  have key : Enum.ValidateFromContext env e schCtx errs = some errs ↔
      ∃ c ∈ e, Const.ValidateFromContext env c schCtx [] = [] := by
    rw [← Enum_validateLoop_iff]
    unfold Enum.ValidateFromContext
    cases hl : Enum.validateLoop env schCtx e
    · cases hs : Enum.String e with
      | none => simp
      | some s => simpa using AddErrorCtx_ne errs schCtx _
    · simp
  refine ⟨?_, key⟩
  rw [key]
  constructor
  · rintro ⟨c, hc, h⟩
    exact ⟨c, hc, (Const_validate_nil_iff env c schCtx).1 h⟩
  · rintro ⟨c, hc, h⟩
    exact ⟨c, hc, (Const_validate_nil_iff env c schCtx).2 h⟩

/-- C3: for a non-empty enum list none of whose constants validates the
instance, `Enum.ValidateFromContext` returns the given errors followed by exactly
one new error whose message is `should be one of ` followed by `Enum.String()`,
and `Enum.String()` is `[`, the raw constants in declared order joined by `, `,
and `]`; nothing reported by the individual const checks reaches the
accumulator. -/
theorem C3_enum_failure_message (env : Env) (e : Enum) (schCtx : SchemaContext)
    (errs : List KeyError) (hne : e ≠ [])
    (hnone : ∀ c ∈ e, Const.ValidateFromContext env c schCtx [] ≠ []) :
    Enum.String e = some ("[" ++ ", ".intercalate (e.map Const.String) ++ "]") ∧
    Enum.ValidateFromContext env e schCtx errs =
      some (errs ++ [{ PropertyPath := schCtx.InstanceLocation,
                       Message := "should be one of " ++
                         ("[" ++ ", ".intercalate (e.map Const.String) ++ "]") }]) := by
  have hmap : ∀ l : List Const, l.map Const.String = l := by
    intro l
    induction l with
    | nil => rfl
    | cons a l ih => simp [Const.String, ih]
  have hstr : Enum.String e = some ("[" ++ ", ".intercalate (e.map Const.String) ++ "]") := by
    rw [hmap e]
    cases e with
    | nil => exact absurd rfl hne
    | cons c rest => exact Enum_String_cons c rest
  refine ⟨hstr, ?_⟩
  have hl : Enum.validateLoop env schCtx e = false := by
    cases h : Enum.validateLoop env schCtx e
    · rfl
    · obtain ⟨c, hc, h0⟩ := (Enum_validateLoop_iff env schCtx e).1 h
      exact absurd h0 (hnone c hc)
  unfold Enum.ValidateFromContext
  rw [hl, hstr]
  rfl

/-- C3 at the list `1`, `"a"` and the instance `"b"`. -/
theorem C3_enum_failure_message_witness :
    Enum.String ["1", "\"a\""] = some ("[" ++ ", ".intercalate (["1", "\"a\""].map Const.String) ++ "]") ∧
    Enum.ValidateFromContext sampleEnv ["1", "\"a\""] ⟨Value.str "b", "/x"⟩ [] =
      some ([] ++ [{ PropertyPath := "/x",
                     Message := "should be one of " ++
                       ("[" ++ ", ".intercalate (["1", "\"a\""].map Const.String) ++ "]") }]) :=
  C3_enum_failure_message sampleEnv ["1", "\"a\""] ⟨Value.str "b", "/x"⟩ [] (by decide)
    (by decide)

/-! ## Data type detection -/

theorem DataType_null : DataType Value.null = "null" := rfl

theorem DataType_bool (b : Bool) : DataType (Value.bool b) = "boolean" := rfl

theorem DataType_str (s : String) : DataType (Value.str s) = "string" := rfl

theorem DataType_arr (xs : List Value) : DataType (Value.arr xs) = "array" := rfl

theorem DataType_obj (kvs : List (String × Value)) : DataType (Value.obj kvs) = "object" := rfl

theorem DataType_num (f : ℚ) :
    DataType (Value.num f) =
      if float64OfInt (float64ToInt f) = f then "integer" else "number" := rfl

theorem DataType_num_cases (f : ℚ) :
    DataType (Value.num f) = "integer" ∨ DataType (Value.num f) = "number" := by
  rw [DataType_num]
  split
  · exact Or.inl rfl
  · exact Or.inr rfl

/-- A value that is not a string is never typed `string`. -/
theorem DataType_ne_string (v : Value) (hv : ∀ s, v ≠ Value.str s) : DataType v ≠ "string" := by
  cases v with
  | null => decide
  | bool b => rw [DataType_bool]; decide
  | num f => rcases DataType_num_cases f with h | h <;> rw [h] <;> decide
  | str s => exact absurd rfl (hv s)
  | arr xs => rw [DataType_arr]; decide
  | obj kvs => rw [DataType_obj]; decide

theorem DataTypeWithHint_str (s hint : String) :
    DataTypeWithHint (Value.str s) hint =
      if hint = "boolean" ∧ (ParseBool s).isSome then "boolean" else "string" := by
  unfold DataTypeWithHint
  simp [DataType_str, Value.asString]

/-! ## The matching loop of `type` -/

theorem Type_validateLoop_iff (schCtx : SchemaContext) (vals : List String) :
    TypeKeyword.validateLoop schCtx (DataType schCtx.Instance) vals = true ↔
      ∃ t ∈ vals, TypeKeyword.accepts schCtx.Instance t := by
  induction vals with
  | nil => simp [TypeKeyword.validateLoop]
  | cons typestr rest ih =>
    simp only [TypeKeyword.validateLoop, List.mem_cons, exists_eq_or_imp, TypeKeyword.accepts]
    by_cases h1 : DataType schCtx.Instance = typestr ∨
        (DataType schCtx.Instance = "integer" ∧ typestr = "number")
    · rw [if_pos h1]
      simp only [true_iff]
      rcases h1 with h | h
      · exact Or.inl (Or.inl h)
      · exact Or.inl (Or.inr (Or.inl h))
    · rw [if_neg h1]
      by_cases h2 : DataType schCtx.Instance = "string" ∧
          (typestr = "boolean" ∨ typestr = "number" ∨ typestr = "integer")
      · rw [if_pos h2]
        by_cases h3 : DataTypeWithHint schCtx.Instance typestr = typestr
        · rw [if_pos h3]
          simp only [true_iff]
          exact Or.inl (Or.inr (Or.inr ⟨h2.1, h2.2, h3⟩))
        · rw [if_neg h3, ih]
          constructor
          · intro h; exact Or.inr h
          · rintro (h | h)
            · rcases h with h | h | h
              · exact absurd (Or.inl h) h1
              · exact absurd (Or.inr h) h1
              · exact absurd h.2.2 h3
            · exact h
      · rw [if_neg h2, ih]
        constructor
        · intro h; exact Or.inr h
        · rintro (h | h)
          · rcases h with h | h | h
            · exact absurd (Or.inl h) h1
            · exact absurd (Or.inr h) h1
            · exact absurd ⟨h.1, h.2.1⟩ h2
          · exact h

/-- A string instance is accepted by a declared name exactly when the name is
`string`, or the name is `boolean` and the string is a boolean literal. -/
theorem Type_accepts_str (s t : String) :
    TypeKeyword.accepts (Value.str s) t ↔
      t = "string" ∨ (t = "boolean" ∧ (ParseBool s).isSome = true) := by
  unfold TypeKeyword.accepts
  rw [DataType_str, DataTypeWithHint_str]
  constructor
  · rintro (h | h | h)
    · exact Or.inl h.symm
    · exact absurd h.1 (by decide)
    · obtain ⟨_, _, h3⟩ := h
      by_cases hb : t = "boolean" ∧ (ParseBool s).isSome = true
      · exact Or.inr hb
      · rw [if_neg hb] at h3
        exact Or.inl h3.symm
  · rintro (h | ⟨h1, h2⟩)
    · exact Or.inl h.symm
    · refine Or.inr (Or.inr ⟨rfl, Or.inl h1, ?_⟩)
      rw [if_pos ⟨h1, h2⟩, h1]

/-- A value that is not a string is accepted by a declared name exactly when the
name is its data type, or the name is `number` and the data type is `integer`. -/
theorem Type_accepts_nonstr (v : Value) (hv : ∀ s, v ≠ Value.str s) (t : String) :
    TypeKeyword.accepts v t ↔
      t = DataType v ∨ (t = "number" ∧ DataType v = "integer") := by
  unfold TypeKeyword.accepts
  have hns := DataType_ne_string v hv
  constructor
  · rintro (h | h | h)
    · exact Or.inl h.symm
    · exact Or.inr ⟨h.2, h.1⟩
    · exact absurd h.1 hns
  · rintro (h | h)
    · exact Or.inl h.symm
    · exact Or.inr (Or.inl ⟨h.2, h.1⟩)

/-- The three outcomes of `Type.ValidateFromContext` for a non-empty
declaration: the errors unchanged when the loop returns, otherwise one error
appended, worded for one name or for several. -/
theorem Type_validate_cons (b : Bool) (x : String) (rest : List String)
    (schCtx : SchemaContext) (errs : List KeyError) :
    TypeKeyword.ValidateFromContext ⟨b, x :: rest⟩ schCtx errs =
      if TypeKeyword.validateLoop schCtx (DataType schCtx.Instance) (x :: rest) = true then
        some errs
      else if rest = [] then
        some (errs ++ [{ PropertyPath := schCtx.InstanceLocation,
                         Message := "type should be " ++ x }])
      else
        some (errs ++ [{ PropertyPath := schCtx.InstanceLocation,
                         Message := "type should be one of: " ++
                           ",".intercalate (x :: rest) }]) := by
  unfold TypeKeyword.ValidateFromContext
  simp only []
  by_cases hl : TypeKeyword.validateLoop schCtx (DataType schCtx.Instance) (x :: rest) = true
  · rw [if_pos hl, if_pos hl]
  · rw [if_neg hl, if_neg hl]
    cases rest with
    | nil => simp [AddErrorCtx]
    | cons y ys =>
      have hlen : ¬ (x :: y :: ys).length = 1 := by simp
      rw [dif_neg hlen, if_neg (by simp)]
      rw [foldl_append_sep "," (y :: ys) "" x, goSliceTo_append _ _ 1 (by decide)]
      simp [AddErrorCtx]

/-! ## type: numeric instances -/

theorem float64OfInt_whole (i : Int) : ∃ z : Int, float64OfInt i = (z : ℚ) := by
  unfold float64OfInt
  split
  · exact ⟨-((roundNat53 i.natAbs : Nat) : Int), by push_cast; rfl⟩
  · exact ⟨((roundNat53 i.natAbs : Nat) : Int), by push_cast; rfl⟩

/-- A number with a nonzero fractional part is typed `number`. -/
theorem DataType_num_fract (f : ℚ) (hf : Int.fract f ≠ 0) :
    DataType (Value.num f) = "number" := by
  rw [DataType_num]
  obtain ⟨z, hz⟩ := float64OfInt_whole (float64ToInt f)
  have hne : float64OfInt (float64ToInt f) ≠ f := by
    intro h
    apply hf
    rw [← h, hz]
    exact Int.fract_intCast z
  rw [if_neg hne]

/-- The declared type `number` accepts every numeric instance. -/
theorem Type_number_accepts_num (b : Bool) (f : ℚ) (path : String) (errs : List KeyError) :
    TypeKeyword.ValidateFromContext ⟨b, ["number"]⟩ ⟨Value.num f, path⟩ errs = some errs := by
  rw [Type_validate_cons]
  have hl : TypeKeyword.validateLoop ⟨Value.num f, path⟩
      (DataType (Value.num f)) ["number"] = true := by
    rw [Type_validateLoop_iff (⟨Value.num f, path⟩ : SchemaContext) ["number"]]
    refine ⟨"number", by simp, ?_⟩
    rcases DataType_num_cases f with h | h
    · exact Or.inr (Or.inl ⟨h, rfl⟩)
    · exact Or.inl h
  rw [if_pos hl]

/-- The declared type `integer` rejects a number with a nonzero fractional
part. -/
theorem Type_integer_rejects_fract (b : Bool) (f : ℚ) (path : String) (errs : List KeyError)
    (hf : Int.fract f ≠ 0) :
    TypeKeyword.ValidateFromContext ⟨b, ["integer"]⟩ ⟨Value.num f, path⟩ errs =
      some (errs ++ [{ PropertyPath := path, Message := "type should be integer" }]) := by
  rw [Type_validate_cons]
  have hl : ¬ TypeKeyword.validateLoop ⟨Value.num f, path⟩
      (DataType (Value.num f)) ["integer"] = true := by
    rw [Type_validateLoop_iff (⟨Value.num f, path⟩ : SchemaContext) ["integer"]]
    rintro ⟨t, ht, hacc⟩
    have ht2 : t = "integer" := by simpa using ht
    subst ht2
    rw [Type_accepts_nonstr _ (by intro s h; cases h)] at hacc
    rw [DataType_num_fract f hf] at hacc
    rcases hacc with h | h
    · exact absurd h (by decide)
    · exact absurd h.1 (by decide)
  rw [if_neg hl, if_pos rfl]
  rfl

/-- C4: the instance `1e19` has no fractional part, yet validation against the
single declared type `integer` reports `type should be integer`: the round trip
`float64(int(number))` overflows the 64-bit `int`, so `DataType` answers
`number`. -/
theorem C4_integer_rejects_1e19 :
    Int.fract ((10 : ℚ) ^ 19) = 0 ∧
    DataType (Value.num (10 ^ 19)) = "number" ∧
    TypeKeyword.ValidateFromContext ⟨true, ["integer"]⟩ ⟨Value.num (10 ^ 19), ""⟩ [] =
      some [{ PropertyPath := "", Message := "type should be integer" }] := by
  refine ⟨?_, by decide!, by decide!⟩
  have h : ((10 : ℚ) ^ 19) = (((10 : Int) ^ 19 : Int) : ℚ) := by push_cast; rfl
  rw [h]
  exact Int.fract_intCast _

/-! ## type: textual instances -/

theorem Type_validateLoop_str_single (s t path : String) :
    TypeKeyword.validateLoop ⟨Value.str s, path⟩ (DataType (Value.str s)) [t] = true ↔
      t = "string" ∨ (t = "boolean" ∧ (ParseBool s).isSome = true) := by
  rw [Type_validateLoop_iff (⟨Value.str s, path⟩ : SchemaContext) [t]]
  constructor
  · rintro ⟨u, hu, h⟩
    have hu2 : u = t := by simpa using hu
    subst hu2
    exact (Type_accepts_str s u).1 h
  · intro h
    exact ⟨t, by simp, (Type_accepts_str s t).2 h⟩

/-- C5: the single declared type `boolean` applied to a string instance appends
no error iff `strconv.ParseBool` accepts the string, and appends exactly one
error otherwise; it passes for `true` and `false` and fails with one error for
`yes`. -/
theorem C5_boolean_on_string (b : Bool) (s path : String) (errs : List KeyError) :
    (TypeKeyword.ValidateFromContext ⟨b, ["boolean"]⟩ ⟨Value.str s, path⟩ errs = some errs ↔
        (ParseBool s).isSome = true) ∧
    ((ParseBool s).isSome = false →
        TypeKeyword.ValidateFromContext ⟨b, ["boolean"]⟩ ⟨Value.str s, path⟩ errs =
          some (errs ++ [{ PropertyPath := path, Message := "type should be boolean" }])) ∧
    TypeKeyword.ValidateFromContext ⟨b, ["boolean"]⟩ ⟨Value.str "true", path⟩ errs = some errs ∧
    TypeKeyword.ValidateFromContext ⟨b, ["boolean"]⟩ ⟨Value.str "false", path⟩ errs = some errs ∧
    TypeKeyword.ValidateFromContext ⟨b, ["boolean"]⟩ ⟨Value.str "yes", path⟩ errs =
      some (errs ++ [{ PropertyPath := path, Message := "type should be boolean" }]) := by
  have key : ∀ s : String,
      TypeKeyword.ValidateFromContext ⟨b, ["boolean"]⟩ ⟨Value.str s, path⟩ errs =
        if (ParseBool s).isSome = true then some errs
        else some (errs ++ [{ PropertyPath := path, Message := "type should be boolean" }]) := by
    intro s
    rw [Type_validate_cons]
    have hiff := Type_validateLoop_str_single s "boolean" path
    by_cases hp : (ParseBool s).isSome = true
    · rw [if_pos (hiff.2 (Or.inr ⟨rfl, hp⟩)), if_pos hp]
    · have hl : ¬ TypeKeyword.validateLoop ⟨Value.str s, path⟩
          (DataType (Value.str s)) ["boolean"] = true := by
        intro h
        rcases hiff.1 h with h1 | h1
        · exact absurd h1 (by decide)
        · exact hp h1.2
      rw [if_neg hl, if_pos rfl, if_neg hp]
      rfl
  refine ⟨?_, ?_, ?_, ?_, ?_⟩
  · rw [key s]
    by_cases hp : (ParseBool s).isSome = true
    · simp [hp]
    · rw [if_neg hp]
      constructor
      · intro h
        exact absurd h (some_append_one_ne errs _)
      · intro h
        exact absurd h hp
  · intro hp
    rw [key s, if_neg (by simp [hp])]
  · rw [key "true", if_pos (by decide)]
  · rw [key "false", if_pos (by decide)]
  · rw [key "yes", if_neg (by decide)]

/-- C6: for an instance that is not a string and a non-empty list of declared
names, `Type.ValidateFromContext` appends no error iff some declared name equals
`DataType` of the instance or some declared name is `number` while `DataType`
of the instance is `integer`; otherwise it appends exactly one error. -/
theorem C6_type_matching_rule (b : Bool) (vals : List String) (v : Value) (path : String)
    (errs : List KeyError) (hne : vals ≠ []) (hv : ∀ s, v ≠ Value.str s) :
    (TypeKeyword.ValidateFromContext ⟨b, vals⟩ ⟨v, path⟩ errs = some errs ↔
        ∃ t ∈ vals, t = DataType v ∨ (t = "number" ∧ DataType v = "integer")) ∧
    ((¬ ∃ t ∈ vals, t = DataType v ∨ (t = "number" ∧ DataType v = "integer")) →
        ∃ e, TypeKeyword.ValidateFromContext ⟨b, vals⟩ ⟨v, path⟩ errs = some (errs ++ [e])) := by
  cases vals with
  | nil => exact absurd rfl hne
  | cons x rest =>
    have hiff : TypeKeyword.validateLoop ⟨v, path⟩ (DataType v) (x :: rest) = true ↔
        ∃ t ∈ x :: rest, t = DataType v ∨ (t = "number" ∧ DataType v = "integer") := by
      rw [Type_validateLoop_iff (⟨v, path⟩ : SchemaContext) (x :: rest)]
      constructor
      · rintro ⟨t, ht, h⟩
        exact ⟨t, ht, (Type_accepts_nonstr v hv t).1 h⟩
      · rintro ⟨t, ht, h⟩
        exact ⟨t, ht, (Type_accepts_nonstr v hv t).2 h⟩
    rw [Type_validate_cons]
    by_cases hl : TypeKeyword.validateLoop ⟨v, path⟩ (DataType v) (x :: rest) = true
    · have hl2 : TypeKeyword.validateLoop ⟨v, path⟩
          (DataType (SchemaContext.mk v path).Instance) (x :: rest) = true := hl
      rw [if_pos hl2]
      exact ⟨⟨fun _ => hiff.1 hl, fun _ => rfl⟩, fun h => absurd (hiff.1 hl) h⟩
    · have hl2 : ¬ TypeKeyword.validateLoop ⟨v, path⟩
          (DataType (SchemaContext.mk v path).Instance) (x :: rest) = true := hl
      rw [if_neg hl2]
      constructor
      · constructor
        · intro h
          exfalso
          by_cases hr : rest = []
          · rw [if_pos hr] at h
            exact some_append_one_ne errs _ h
          · rw [if_neg hr] at h
            exact some_append_one_ne errs _ h
        · intro h
          exact absurd (hiff.2 h) hl
      · intro _
        by_cases hr : rest = []
        · rw [if_pos hr]
          exact ⟨_, rfl⟩
        · rw [if_neg hr]
          exact ⟨_, rfl⟩

/-- C6 at the declaration `string`, `number` and the instance `1`. -/
theorem C6_type_matching_rule_witness :
    (TypeKeyword.ValidateFromContext ⟨false, ["string", "number"]⟩ ⟨Value.num 1, "/n"⟩ [] = some [] ↔
        ∃ t ∈ ["string", "number"],
          t = DataType (Value.num 1) ∨ (t = "number" ∧ DataType (Value.num 1) = "integer")) ∧
    ((¬ ∃ t ∈ ["string", "number"],
          t = DataType (Value.num 1) ∨ (t = "number" ∧ DataType (Value.num 1) = "integer")) →
        ∃ e, TypeKeyword.ValidateFromContext ⟨false, ["string", "number"]⟩ ⟨Value.num 1, "/n"⟩ [] =
          some ([] ++ [e])) :=
  C6_type_matching_rule false ["string", "number"] (Value.num 1) "/n" [] (by decide)
    (by intro s h; cases h)

/-- The declared types `number` and `integer` reject every string instance. -/
theorem Type_numeric_rejects_str (b : Bool) (t s path : String) (errs : List KeyError)
    (ht : t = "number" ∨ t = "integer") :
    TypeKeyword.ValidateFromContext ⟨b, [t]⟩ ⟨Value.str s, path⟩ errs =
      some (errs ++ [{ PropertyPath := path, Message := "type should be " ++ t }]) := by
  rw [Type_validate_cons]
  have hl : ¬ TypeKeyword.validateLoop ⟨Value.str s, path⟩
      (DataType (Value.str s)) [t] = true := by
    intro h
    rcases (Type_validateLoop_str_single s t path).1 h with h1 | h1
    · rcases ht with ht | ht <;> rw [ht] at h1 <;> exact absurd h1 (by decide)
    · rcases ht with ht | ht <;> rw [ht] at h1 <;> exact absurd h1.1 (by decide)
  rw [if_neg hl, if_pos rfl]

/-- C7 fails as stated: the string `1` is rejected, with one error, both by the
declared type `number` and by the declared type `integer`. -/
theorem C7_string_one_rejected :
    TypeKeyword.ValidateFromContext ⟨true, ["number"]⟩ ⟨Value.str "1", ""⟩ [] =
      some [{ PropertyPath := "", Message := "type should be number" }] ∧
    TypeKeyword.ValidateFromContext ⟨true, ["integer"]⟩ ⟨Value.str "1", ""⟩ [] =
      some [{ PropertyPath := "", Message := "type should be integer" }] := by
  constructor <;> decide

/-- C7 as amended: a textual instance is never accepted for the declared type
`number` nor for `integer`, whatever its content: validation appends exactly one
error. The hint only rewrites a string to `boolean` (when it is a boolean
literal) and an inferred `integer` to `number`, and the latter never applies to
a string. -/
theorem C7_string_never_numeric (b : Bool) (s path : String) (errs : List KeyError) :
    TypeKeyword.ValidateFromContext ⟨b, ["number"]⟩ ⟨Value.str s, path⟩ errs =
      some (errs ++ [{ PropertyPath := path, Message := "type should be number" }]) ∧
    TypeKeyword.ValidateFromContext ⟨b, ["integer"]⟩ ⟨Value.str s, path⟩ errs =
      some (errs ++ [{ PropertyPath := path, Message := "type should be integer" }]) ∧
    DataTypeWithHint (Value.str s) "number" = "string" ∧
    DataTypeWithHint (Value.str s) "integer" = "string" ∧
    (DataTypeWithHint (Value.str s) "boolean" = "boolean" ↔ (ParseBool s).isSome = true) := by
  refine ⟨Type_numeric_rejects_str b "number" s path errs (Or.inl rfl),
    Type_numeric_rejects_str b "integer" s path errs (Or.inr rfl), ?_, ?_, ?_⟩
  · rw [DataTypeWithHint_str, if_neg (fun h => absurd h.1 (by decide))]
  · rw [DataTypeWithHint_str, if_neg (fun h => absurd h.1 (by decide))]
  · rw [DataTypeWithHint_str]
    by_cases hp : (ParseBool s).isSome = true
    · simp [hp]
    · simp [hp]

/-- C8: for every string instance, the single declared type `integer` appends
exactly one error and the single declared type `string` appends none. -/
theorem C8_string_instance_integer_vs_string (b : Bool) (s path : String)
    (errs : List KeyError) :
    TypeKeyword.ValidateFromContext ⟨b, ["integer"]⟩ ⟨Value.str s, path⟩ errs =
      some (errs ++ [{ PropertyPath := path, Message := "type should be integer" }]) ∧
    TypeKeyword.ValidateFromContext ⟨b, ["string"]⟩ ⟨Value.str s, path⟩ errs = some errs := by
  refine ⟨Type_numeric_rejects_str b "integer" s path errs (Or.inr rfl), ?_⟩
  rw [Type_validate_cons]
  rw [if_pos ((Type_validateLoop_str_single s "string" path).2 (Or.inl rfl))]

/-! ## Parsing of `type` -/

theorem primitiveTypes_iff (pr : String) : primitiveTypes pr = true ↔ pr ∈ typeVocabulary := by
  unfold primitiveTypes primitiveTypesEntries typeVocabulary
  simp only [List.lookup, List.mem_cons, List.mem_singleton, List.not_mem_nil, or_false]
  by_cases h1 : pr = "null"
  · subst h1; decide
  by_cases h2 : pr = "boolean"
  · subst h2; decide
  by_cases h3 : pr = "object"
  · subst h3; decide
  by_cases h4 : pr = "array"
  · subst h4; decide
  by_cases h5 : pr = "number"
  · subst h5; decide
  by_cases h6 : pr = "string"
  · subst h6; decide
  by_cases h7 : pr = "integer"
  · subst h7; decide
  have b1 : (pr == "null") = false := by simpa using h1
  have b2 : (pr == "boolean") = false := by simpa using h2
  have b3 : (pr == "object") = false := by simpa using h3
  have b4 : (pr == "array") = false := by simpa using h4
  have b5 : (pr == "number") = false := by simpa using h5
  have b6 : (pr == "string") = false := by simpa using h6
  have b7 : (pr == "integer") = false := by simpa using h7
  simp [b1, b2, b3, b4, b5, b6, b7, h1, h2, h3, h4, h5, h6, h7]

theorem checkVals_isSome_iff (vals : List String) :
    (TypeKeyword.checkVals vals).isSome = true ↔ ∃ n ∈ vals, n ∉ typeVocabulary := by
  induction vals with
  | nil => simp [TypeKeyword.checkVals]
  | cons pr rest ih =>
    simp only [TypeKeyword.checkVals, List.mem_cons, exists_eq_or_imp]
    by_cases hp : primitiveTypes pr = true
    · have hmem := (primitiveTypes_iff pr).1 hp
      simp [hp, ih, hmem]
    · have hmem : pr ∉ typeVocabulary := fun h => hp ((primitiveTypes_iff pr).2 h)
      have hp2 : primitiveTypes pr = false := by simpa using hp
      simp [hp2, hmem]

theorem mapM_unmarshalStringElem (names : List String) :
    (names.map Value.str).mapM unmarshalStringElem = Except.ok names := by
  induction names with
  | nil => rfl
  | cons n rest ih =>
    rw [List.map_cons, List.mapM_cons, ih]
    rfl

theorem unmarshalString_str (env : Env) (data : RawMessage) (name cur : String)
    (hdata : env.jsonUnmarshal data = .ok (Value.str name)) :
    env.unmarshalString data cur = .ok name := by
  unfold Env.unmarshalString
  rw [hdata]

theorem unmarshalString_arr (env : Env) (data : RawMessage) (xs : List Value) (cur : String)
    (hdata : env.jsonUnmarshal data = .ok (Value.arr xs)) :
    env.unmarshalString data cur =
      .error "json: cannot unmarshal into Go value of type string" := by
  unfold Env.unmarshalString
  rw [hdata]

theorem unmarshalStrings_arr (env : Env) (data : RawMessage) (xs : List Value)
    (hdata : env.jsonUnmarshal data = .ok (Value.arr xs)) :
    env.unmarshalStrings data = xs.mapM unmarshalStringElem := by
  unfold Env.unmarshalStrings
  rw [hdata]

theorem Type_UnmarshalJSON_single (env : Env) (t : TypeKeyword) (data : RawMessage)
    (name : String) (hdata : env.jsonUnmarshal data = .ok (Value.str name)) :
    TypeKeyword.UnmarshalJSON env t data = (⟨true, [name]⟩, TypeKeyword.checkVals [name]) := by
  unfold TypeKeyword.UnmarshalJSON
  rw [unmarshalString_str env data name "" hdata]

theorem Type_UnmarshalJSON_set (env : Env) (t : TypeKeyword) (data : RawMessage)
    (names : List String)
    (hdata : env.jsonUnmarshal data = .ok (Value.arr (names.map Value.str))) :
    TypeKeyword.UnmarshalJSON env t data = (⟨false, names⟩, TypeKeyword.checkVals names) := by
  unfold TypeKeyword.UnmarshalJSON
  rw [unmarshalString_arr env data _ "" hdata, unmarshalStrings_arr env data _ hdata]
  simp only []
  rw [mapM_unmarshalStringElem]

theorem checkVals_none_vocabulary (vals : List String)
    (h : TypeKeyword.checkVals vals = none) : ∀ n ∈ vals, n ∈ typeVocabulary := by
  intro n hn
  by_contra hc
  have := (checkVals_isSome_iff vals).2 ⟨n, hn, hc⟩
  rw [h] at this
  exact absurd this (by decide)

/-- Whatever the input, a call of `Type.UnmarshalJSON` that returns no error
leaves only vocabulary names in the receiver. -/
theorem Type_UnmarshalJSON_ok_vocabulary (env : Env) (t : TypeKeyword) (data : RawMessage)
    (h : (TypeKeyword.UnmarshalJSON env t data).2 = none) :
    ∀ n ∈ (TypeKeyword.UnmarshalJSON env t data).1.vals, n ∈ typeVocabulary := by
  unfold TypeKeyword.UnmarshalJSON at h ⊢
  cases h1 : env.unmarshalString data "" with
  | ok single =>
    rw [h1] at h
    exact checkVals_none_vocabulary [single] h
  | error e1 =>
    rw [h1] at h
    cases h2 : env.unmarshalStrings data with
    | ok set =>
      rw [h2] at h
      exact checkVals_none_vocabulary set h
    | error e2 =>
      rw [h2] at h
      exact absurd h (by simp)

/-- C9: for an input that decodes to a JSON string or a JSON array of strings,
`Type.UnmarshalJSON` returns an error iff some declared name is outside the
vocabulary null, boolean, object, array, number, string, integer; when it
returns no error the receiver holds exactly the declared names in declared
order; and a Type parsed without error, from any input, holds only vocabulary
names. -/
theorem C9_type_unmarshal_vocabulary (env : Env) (t : TypeKeyword) (data : RawMessage)
    (decl : TypeDecl) (hdata : env.jsonUnmarshal data = .ok decl.toValue) :
    ((TypeKeyword.UnmarshalJSON env t data).2.isSome = true ↔
        ∃ n ∈ decl.names, n ∉ typeVocabulary) ∧
    ((TypeKeyword.UnmarshalJSON env t data).2 = none →
        (TypeKeyword.UnmarshalJSON env t data).1.vals = decl.names) ∧
    (∀ (t2 : TypeKeyword) (data2 : RawMessage),
        (TypeKeyword.UnmarshalJSON env t2 data2).2 = none →
        ∀ n ∈ (TypeKeyword.UnmarshalJSON env t2 data2).1.vals, n ∈ typeVocabulary) := by
  refine ⟨?_, ?_, fun t2 data2 h => Type_UnmarshalJSON_ok_vocabulary env t2 data2 h⟩
  · cases decl with
    | single name =>
      rw [Type_UnmarshalJSON_single env t data name hdata]
      exact checkVals_isSome_iff [name]
    | set names =>
      rw [Type_UnmarshalJSON_set env t data names hdata]
      exact checkVals_isSome_iff names
  · intro _
    cases decl with
    | single name =>
      rw [Type_UnmarshalJSON_single env t data name hdata]
      rfl
    | set names =>
      rw [Type_UnmarshalJSON_set env t data names hdata]
      rfl

/-- C9 at the declaration `["null", "string"]`. -/
theorem C9_type_unmarshal_vocabulary_witness :
    ((TypeKeyword.UnmarshalJSON sampleEnv ⟨false, []⟩ "[\"null\", \"string\"]").2.isSome = true ↔
        ∃ n ∈ (TypeDecl.set ["null", "string"]).names, n ∉ typeVocabulary) ∧
    ((TypeKeyword.UnmarshalJSON sampleEnv ⟨false, []⟩ "[\"null\", \"string\"]").2 = none →
        (TypeKeyword.UnmarshalJSON sampleEnv ⟨false, []⟩ "[\"null\", \"string\"]").1.vals =
          (TypeDecl.set ["null", "string"]).names) ∧
    (∀ (t2 : TypeKeyword) (data2 : RawMessage),
        (TypeKeyword.UnmarshalJSON sampleEnv t2 data2).2 = none →
        ∀ n ∈ (TypeKeyword.UnmarshalJSON sampleEnv t2 data2).1.vals, n ∈ typeVocabulary) :=
  C9_type_unmarshal_vocabulary sampleEnv ⟨false, []⟩ "[\"null\", \"string\"]"
    (TypeDecl.set ["null", "string"]) rfl

/-! ## DataType on JSON values -/

/-- On every JSON value `DataType` answers a name of the vocabulary, never
`unknown`. -/
theorem DataType_mem_typeVocabulary (d : Value) : DataType d ∈ typeVocabulary := by
  cases d with
  | null => rw [DataType_null]; decide
  | bool b => rw [DataType_bool]; decide
  | num f => rcases DataType_num_cases f with h | h <;> rw [h] <;> decide
  | str s => rw [DataType_str]; decide
  | arr xs => rw [DataType_arr]; decide
  | obj kvs => rw [DataType_obj]; decide

/-- C10: the number `1e19` has no fractional part and `DataType` answers
`number` for it, not `integer`. -/
theorem C10_DataType_1e19_is_number :
    Int.fract ((10 : ℚ) ^ 19) = 0 ∧ DataType (Value.num (10 ^ 19)) = "number" := by
  refine ⟨?_, by decide!⟩
  have h : ((10 : ℚ) ^ 19) = (((10 : Int) ^ 19 : Int) : ℚ) := by push_cast; rfl
  rw [h]
  exact Int.fract_intCast _

/-! ## The round trip `float64(int(number))` -/

theorem excessBits_pos_le (fuel n : Nat) (h : 0 < excessBits fuel n) :
    2 ^ (52 + excessBits fuel n) ≤ n := by
  induction fuel generalizing n with
  | zero => simp [excessBits] at h
  | succ fuel ih =>
    unfold excessBits at h ⊢
    by_cases hn : n < 2 ^ 53
    · rw [if_pos hn] at h; exact absurd h (by decide)
    · rw [if_neg hn]
      by_cases h0 : 0 < excessBits fuel (n / 2)
      · have := ih (n / 2) h0
        have h2 : 2 ^ (52 + (excessBits fuel (n / 2) + 1)) =
            2 * 2 ^ (52 + excessBits fuel (n / 2)) := by ring
        rw [h2]
        omega
      · have h1 : excessBits fuel (n / 2) = 0 := by omega
        rw [h1]
        omega

theorem excessBits_le (fuel n j : Nat) (h : n < 2 ^ (53 + j)) : excessBits fuel n ≤ j := by
  induction fuel generalizing n j with
  | zero => simp [excessBits]
  | succ fuel ih =>
    unfold excessBits
    by_cases hn : n < 2 ^ 53
    · rw [if_pos hn]; omega
    · rw [if_neg hn]
      cases j with
      | zero => exact absurd h hn
      | succ j =>
        have h2 : (2 : Nat) ^ (53 + (j + 1)) = 2 * 2 ^ (53 + j) := by ring
        rw [h2] at h
        have := ih (n / 2) j (by omega)
        omega

theorem excessBits_div_lt (fuel n : Nat) (h : n < 2 ^ (53 + fuel)) :
    n / 2 ^ excessBits fuel n < 2 ^ 53 := by
  induction fuel generalizing n with
  | zero => simpa [excessBits] using h
  | succ fuel ih =>
    unfold excessBits
    by_cases hn : n < 2 ^ 53
    · rw [if_pos hn]; simpa using hn
    · rw [if_neg hn]
      have h2 : (2 : Nat) ^ (53 + (fuel + 1)) = 2 * 2 ^ (53 + fuel) := by ring
      rw [h2] at h
      have := ih (n / 2) (by omega)
      rw [pow_succ, Nat.mul_comm, ← Nat.div_div_eq_div_mul]
      exact this

/-- A magnitude with at most 53 significant bits is left as it is. -/
theorem roundNat53_exact (m e : Nat) (hm : m < 2 ^ 53) : roundNat53 (m * 2 ^ e) = m * 2 ^ e := by
  unfold roundNat53
  simp only []
  by_cases hk : excessBits 11 (m * 2 ^ e) = 0
  · rw [if_pos hk]
  · rw [if_neg hk]
    have hpos : 0 < excessBits 11 (m * 2 ^ e) := Nat.pos_of_ne_zero hk
    have hle := excessBits_pos_le 11 (m * 2 ^ e) hpos
    generalize excessBits 11 (m * 2 ^ e) = k at hk hpos hle
    have hlt : m * 2 ^ e < 2 ^ (53 + e) := by
      rw [pow_add]
      exact Nat.mul_lt_mul_of_pos_right hm (by positivity)
    have hke : k ≤ e := by
      have h1 : 2 ^ (52 + k) < 2 ^ (53 + e) := lt_of_le_of_lt hle hlt
      have h2 := (Nat.pow_lt_pow_iff_right (by decide : 1 < 2)).1 h1
      omega
    have hdvd : 2 ^ k ∣ m * 2 ^ e := Dvd.dvd.mul_left (pow_dvd_pow 2 hke) m
    have hr : m * 2 ^ e % 2 ^ k = 0 := Nat.mod_eq_zero_of_dvd hdvd
    have hhalf : 0 < 2 ^ (k - 1) := by positivity
    rw [hr]
    have hcond : ¬ (2 ^ (k - 1) < 0 ∨ (0 = 2 ^ (k - 1) ∧ m * 2 ^ e / 2 ^ k % 2 = 1)) := by
      rintro (h | h)
      · exact absurd h (by omega)
      · omega
    rw [if_neg hcond]
    exact Nat.div_mul_cancel hdvd

/-- The result of `float64(i)` never exceeds `2 ^ 63` in magnitude for a 64-bit
`i`. -/
theorem roundNat53_le (n : Nat) (hn : n ≤ 2 ^ 63) : roundNat53 n ≤ 2 ^ 63 := by
  by_cases h63 : n = 2 ^ 63
  · subst h63; decide
  · have hlt : n < 2 ^ 63 := lt_of_le_of_ne hn h63
    unfold roundNat53
    simp only []
    by_cases hk : excessBits 11 n = 0
    · rw [if_pos hk]; exact hn
    · rw [if_neg hk]
      have hk10 : excessBits 11 n ≤ 10 := excessBits_le 11 n 10 (by simpa using hlt)
      have hq : n / 2 ^ excessBits 11 n < 2 ^ 53 :=
        excessBits_div_lt 11 n (lt_trans hlt (by decide))
      generalize excessBits 11 n = k at hk hk10 hq
      have hbound : (n / 2 ^ k + 1) * 2 ^ k ≤ 2 ^ 63 := by
        calc (n / 2 ^ k + 1) * 2 ^ k ≤ 2 ^ 53 * 2 ^ k := Nat.mul_le_mul_right _ hq
          _ = 2 ^ (53 + k) := by rw [pow_add]
          _ ≤ 2 ^ 63 := Nat.pow_le_pow_right (by decide) (by omega)
      split
      · exact hbound
      · exact le_trans (Nat.mul_le_mul_right _ (Nat.le_succ _)) hbound

theorem float64OfInt_abs_le (i : Int) (hlo : -(2 : Int) ^ 63 ≤ i) (hhi : i < (2 : Int) ^ 63) :
    |float64OfInt i| ≤ (2 : ℚ) ^ 63 := by
  have hn : i.natAbs ≤ 2 ^ 63 := by omega
  have hr := roundNat53_le i.natAbs hn
  have hq : ((roundNat53 i.natAbs : Nat) : ℚ) ≤ (2 : ℚ) ^ 63 := by exact_mod_cast hr
  have h0 : (0 : ℚ) ≤ ((roundNat53 i.natAbs : Nat) : ℚ) := Nat.cast_nonneg _
  unfold float64OfInt
  split
  · rw [abs_neg, abs_of_nonneg h0]; exact hq
  · rw [abs_of_nonneg h0]; exact hq

/-- Whatever 64-bit value an out-of-range `int(number)` produces, converting it
back cannot give a number of magnitude above `2 ^ 63`. -/
theorem float64OfInt_ne_of_large (f : ℚ) (hf : (2 : ℚ) ^ 63 < |f|) (i : Int)
    (hlo : -(2 : Int) ^ 63 ≤ i) (hhi : i < (2 : Int) ^ 63) : float64OfInt i ≠ f := by
  intro h
  have := float64OfInt_abs_le i hlo hhi
  rw [h] at this
  exact absurd this (not_le.2 hf)

/-- A number of magnitude above `2 ^ 63` is typed `number`, also when it has no
fractional part. -/
theorem DataType_num_large (f : ℚ) (hf : (2 : ℚ) ^ 63 < |f|) :
    DataType (Value.num f) = "number" := by
  rw [DataType_num]
  have hne : float64OfInt (float64ToInt f) ≠ f := by
    apply float64OfInt_ne_of_large f hf
    · unfold float64ToInt
      split
      · rename_i h
        split
        · have : (0 : ℚ) ≤ f := by assumption
          have h0 : (0 : Int) ≤ ⌊f⌋ := Int.floor_nonneg.2 this
          omega
        · have h1 : (-(2 : Int) ^ 63 : Int) ≤ ⌈f⌉ := by
            apply Int.le_ceil_iff.2
            have := h.1
            push_cast
            linarith
          exact h1
      · exact le_refl _
    · unfold float64ToInt
      split
      · rename_i h
        split
        · have h1 : ⌊f⌋ < (2 : Int) ^ 63 := by
            apply Int.floor_lt.2
            have := h.2
            push_cast
            exact this
          exact h1
        · have hneg : f < 0 := by
            rename_i h0
            exact not_le.1 h0
          have h1 : ⌈f⌉ ≤ 0 := Int.ceil_le.2 (by simpa using le_of_lt hneg)
          have h2 : (0 : Int) < (2 : Int) ^ 63 := by positivity
          omega
      · have h2 : (0 : Int) < (2 : Int) ^ 63 := by positivity
        omega
  rw [if_neg hne]

/-- On a `float64` that fits the 64-bit `int` and has no fractional part the
round trip `float64(int(number))` gives the number back. -/
theorem float64_roundtrip_whole (f : ℚ) (hrep : IsFloat64 f) (hlo : -(2 : ℚ) ^ 63 ≤ f)
    (hhi : f < (2 : ℚ) ^ 63) (hw : Int.fract f = 0) :
    float64OfInt (float64ToInt f) = f := by
  have hz : f = ((⌊f⌋ : Int) : ℚ) := by
    have := Int.self_sub_floor f
    rw [hw] at this
    linarith
  generalize ⌊f⌋ = z at hz
  subst hz
  have hto : float64ToInt ((z : Int) : ℚ) = z := by
    unfold float64ToInt
    rw [if_pos ⟨hlo, hhi⟩]
    split
    · exact Int.floor_intCast z
    · exact Int.ceil_intCast z
  rw [hto]
  have hfix : roundNat53 z.natAbs = z.natAbs := by
    obtain ⟨m, e, hm, _, _, hme⟩ := hrep
    rcases Int.le_total 0 e with he | he
    · obtain ⟨k, rfl⟩ := Int.eq_ofNat_of_zero_le he
      have hzk : z = m * 2 ^ k := by
        have : ((z : Int) : ℚ) = ((m * 2 ^ k : Int) : ℚ) := by
          rw [hme]; push_cast; rw [zpow_natCast]
        exact_mod_cast this
      have hn : z.natAbs = m.natAbs * 2 ^ k := by
        rw [hzk, Int.natAbs_mul, Int.natAbs_pow]; rfl
      rw [hn]
      exact roundNat53_exact m.natAbs k hm
    · obtain ⟨k, hk⟩ := Int.eq_ofNat_of_zero_le (neg_nonneg.2 he)
      have he2 : e = -(k : Int) := by omega
      have hmz : m = z * 2 ^ k := by
        have h2 : ((2 : ℚ) ^ k) ≠ 0 := by positivity
        have : ((m : Int) : ℚ) = ((z * 2 ^ k : Int) : ℚ) := by
          push_cast
          rw [hme, he2, zpow_neg, zpow_natCast]
          field_simp
        exact_mod_cast this
      have hn : m.natAbs = z.natAbs * 2 ^ k := by
        rw [hmz, Int.natAbs_mul, Int.natAbs_pow]; rfl
      have hpos : 0 < 2 ^ k := by positivity
      have hzlt : z.natAbs < 2 ^ 53 := by
        have : z.natAbs ≤ z.natAbs * 2 ^ k := Nat.le_mul_of_pos_right _ hpos
        omega
      have := roundNat53_exact z.natAbs 0 hzlt
      simpa using this
  unfold float64OfInt
  rw [hfix]
  split
  · rename_i hneg
    have hq : (z : ℚ) < 0 := by exact_mod_cast hneg
    rw [Nat.cast_natAbs, Int.cast_abs, abs_of_neg hq, neg_neg]
  · rename_i hneg
    have hq : (0 : ℚ) ≤ (z : ℚ) := by exact_mod_cast (not_lt.1 hneg)
    rw [Nat.cast_natAbs, Int.cast_abs, abs_of_nonneg hq]

/-- A `float64` that fits the 64-bit `int` is typed `integer` iff it has no
fractional part. -/
theorem DataType_num_in_range (f : ℚ) (hrep : IsFloat64 f) (hlo : -(2 : ℚ) ^ 63 ≤ f)
    (hhi : f < (2 : ℚ) ^ 63) :
    (DataType (Value.num f) = "integer" ↔ Int.fract f = 0) ∧
    (DataType (Value.num f) = "number" ↔ Int.fract f ≠ 0) := by
  by_cases hw : Int.fract f = 0
  · have h := float64_roundtrip_whole f hrep hlo hhi hw
    rw [DataType_num, if_pos h]
    exact ⟨⟨fun _ => hw, fun _ => rfl⟩, ⟨fun h => absurd h (by decide), fun h => absurd hw h⟩⟩
  · rw [DataType_num_fract f hw]
    exact ⟨⟨fun h => absurd h (by decide), fun h => absurd h hw⟩, ⟨fun _ => hw, fun _ => rfl⟩⟩

/-- The rounding of `float64(i)` keeps 53 significant bits and moves the
magnitude by at most half a unit in the last place. -/
theorem roundNat53_near (n : Nat) (hn : n < 2 ^ 64) :
    (∃ m, m ≤ 2 ^ 53 ∧ roundNat53 n = m * 2 ^ excessBits 11 n) ∧
    2 * roundNat53 n ≤ 2 * n + 2 ^ excessBits 11 n ∧
    2 * n ≤ 2 * roundNat53 n + 2 ^ excessBits 11 n := by
  have hq : n / 2 ^ excessBits 11 n < 2 ^ 53 := excessBits_div_lt 11 n (by simpa using hn)
  unfold roundNat53
  simp only []
  by_cases hk : excessBits 11 n = 0
  · rw [if_pos hk]
    rw [hk] at hq ⊢
    simp only [pow_zero, Nat.div_one, Nat.mul_one] at hq ⊢
    exact ⟨⟨n, le_of_lt hq, rfl⟩, by omega, by omega⟩
  · rw [if_neg hk]
    generalize excessBits 11 n = k at hk hq
    have hpow : 2 ^ k = 2 * 2 ^ (k - 1) := by
      obtain ⟨j, rfl⟩ := Nat.exists_eq_succ_of_ne_zero hk
      simp [pow_succ, Nat.mul_comm]
    have hdm := Nat.div_add_mod n (2 ^ k)
    have hmod : n % 2 ^ k < 2 ^ k := Nat.mod_lt _ (by positivity)
    have hmul : 2 ^ k * (n / 2 ^ k) = n / 2 ^ k * 2 ^ k := Nat.mul_comm _ _
    split
    · rename_i hup
      refine ⟨⟨n / 2 ^ k + 1, hq, rfl⟩, ?_, ?_⟩
      · rw [Nat.add_mul, Nat.one_mul]
        rcases hup with h | h
        · omega
        · omega
      · rw [Nat.add_mul, Nat.one_mul]
        omega
    · rename_i hdown
      have hle : n % 2 ^ k ≤ 2 ^ (k - 1) := by
        by_contra hc
        exact hdown (Or.inl (not_le.1 hc))
      refine ⟨⟨n / 2 ^ k, le_of_lt hq, rfl⟩, ?_, ?_⟩
      · omega
      · omega

/-- The declared type `integer` accepts every `float64` without fractional part
that fits the 64-bit `int`. -/
theorem Type_integer_accepts_whole_in_range (b : Bool) (f : ℚ) (path : String)
    (errs : List KeyError) (hrep : IsFloat64 f) (hlo : -(2 : ℚ) ^ 63 ≤ f)
    (hhi : f < (2 : ℚ) ^ 63) (hw : Int.fract f = 0) :
    TypeKeyword.ValidateFromContext ⟨b, ["integer"]⟩ ⟨Value.num f, path⟩ errs = some errs := by
  rw [Type_validate_cons]
  have hdt : DataType (Value.num f) = "integer" := (DataType_num_in_range f hrep hlo hhi).1.2 hw
  have hl : TypeKeyword.validateLoop ⟨Value.num f, path⟩
      (DataType (Value.num f)) ["integer"] = true := by
    rw [Type_validateLoop_iff (⟨Value.num f, path⟩ : SchemaContext) ["integer"]]
    exact ⟨"integer", by simp, Or.inl hdt⟩
  rw [if_pos hl]

/-- The declared type `integer` rejects every number of magnitude above
`2 ^ 63`, with or without fractional part. -/
theorem Type_integer_rejects_large (b : Bool) (f : ℚ) (path : String) (errs : List KeyError)
    (hf : (2 : ℚ) ^ 63 < |f|) :
    TypeKeyword.ValidateFromContext ⟨b, ["integer"]⟩ ⟨Value.num f, path⟩ errs =
      some (errs ++ [{ PropertyPath := path, Message := "type should be integer" }]) := by
  rw [Type_validate_cons]
  have hl : ¬ TypeKeyword.validateLoop ⟨Value.num f, path⟩
      (DataType (Value.num f)) ["integer"] = true := by
    rw [Type_validateLoop_iff (⟨Value.num f, path⟩ : SchemaContext) ["integer"]]
    rintro ⟨t, ht, hacc⟩
    have ht2 : t = "integer" := by simpa using ht
    subst ht2
    rw [Type_accepts_nonstr _ (by intro s h; cases h)] at hacc
    rw [DataType_num_large f hf] at hacc
    rcases hacc with h | h
    · exact absurd h (by decide)
    · exact absurd h.1 (by decide)
  rw [if_neg hl, if_pos rfl]
  rfl

/-! ## type: outcome of a validation -/

/-- With an empty list of names `Type.ValidateFromContext` panics. -/
theorem Type_validate_nil (b : Bool) (schCtx : SchemaContext) (errs : List KeyError) :
    TypeKeyword.ValidateFromContext ⟨b, []⟩ schCtx errs = none := by
  have h : goSliceTo "" (goLen "" - 1) = none := by decide
  unfold TypeKeyword.ValidateFromContext
  simp [TypeKeyword.validateLoop, h]

/-- Type validation returns the accumulator as it was exactly when the loop
over the declared names returns. -/
theorem Type_passes_iff (b : Bool) (vals : List String) (schCtx : SchemaContext)
    (errs : List KeyError) :
    TypeKeyword.ValidateFromContext ⟨b, vals⟩ schCtx errs = some errs ↔
      TypeKeyword.validateLoop schCtx (DataType schCtx.Instance) vals = true := by
  cases vals with
  | nil =>
    rw [Type_validate_nil]
    simp [TypeKeyword.validateLoop]
  | cons x rest =>
    rw [Type_validate_cons]
    by_cases hl : TypeKeyword.validateLoop schCtx (DataType schCtx.Instance) (x :: rest) = true
    · rw [if_pos hl]
      exact ⟨fun _ => hl, fun _ => rfl⟩
    · rw [if_neg hl]
      constructor
      · intro h
        exfalso
        by_cases hr : rest = []
        · rw [if_pos hr] at h
          exact some_append_one_ne errs _ h
        · rw [if_neg hr] at h
          exact some_append_one_ne errs _ h
      · intro h
        exact absurd h hl

/-- C11: when Type validation fails, a declaration of a single name `X` appends
the one error `type should be X`, and a declaration of two or more names appends
the one error `type should be one of: ` followed by the declared names in
declared order joined by `,`, without trailing comma. -/
theorem C11_type_failure_message (b : Bool) (vals : List String) (schCtx : SchemaContext)
    (errs : List KeyError)
    (hfail : TypeKeyword.ValidateFromContext ⟨b, vals⟩ schCtx errs ≠ some errs) :
    (∀ x, vals = [x] →
        TypeKeyword.ValidateFromContext ⟨b, vals⟩ schCtx errs =
          some (errs ++ [{ PropertyPath := schCtx.InstanceLocation,
                           Message := "type should be " ++ x }])) ∧
    (∀ x y rest, vals = x :: y :: rest →
        TypeKeyword.ValidateFromContext ⟨b, vals⟩ schCtx errs =
          some (errs ++ [{ PropertyPath := schCtx.InstanceLocation,
                           Message := "type should be one of: " ++ ",".intercalate vals }])) := by
  have hl : ¬ TypeKeyword.validateLoop schCtx (DataType schCtx.Instance) vals = true :=
    fun h => hfail ((Type_passes_iff b vals schCtx errs).2 h)
  constructor
  · intro x hx
    subst hx
    rw [Type_validate_cons, if_neg hl, if_pos rfl]
  · intro x y rest hx
    subst hx
    rw [Type_validate_cons, if_neg hl, if_neg (by simp)]

/-- C11 at the declaration `integer`, `null` and the instance `"1"`. -/
theorem C11_type_failure_message_witness :
    (∀ x, ["integer", "null"] = [x] →
        TypeKeyword.ValidateFromContext ⟨false, ["integer", "null"]⟩ ⟨Value.str "1", "/p"⟩ [] =
          some ([] ++ [{ PropertyPath := (SchemaContext.mk (Value.str "1") "/p").InstanceLocation,
                         Message := "type should be " ++ x }])) ∧
    (∀ x y rest, ["integer", "null"] = x :: y :: rest →
        TypeKeyword.ValidateFromContext ⟨false, ["integer", "null"]⟩ ⟨Value.str "1", "/p"⟩ [] =
          some ([] ++ [{ PropertyPath := (SchemaContext.mk (Value.str "1") "/p").InstanceLocation,
                         Message := "type should be one of: " ++
                           ",".intercalate ["integer", "null"] }])) :=
  C11_type_failure_message false ["integer", "null"] ⟨Value.str "1", "/p"⟩ [] (by decide)

/-- C20: Type validation is a disjunction over the declared names: validation
against `xs ++ ys` passes iff validation against `xs` passes or validation
against `ys` passes; the outcome is the same for every reordering of the names,
and a declaration that passes still passes after a name is added. -/
theorem C20_type_disjunction (b b1 b2 : Bool) (xs ys : List String) (schCtx : SchemaContext)
    (errs : List KeyError) :
    (TypeKeyword.ValidateFromContext ⟨b, xs ++ ys⟩ schCtx errs = some errs ↔
        TypeKeyword.ValidateFromContext ⟨b1, xs⟩ schCtx errs = some errs ∨
        TypeKeyword.ValidateFromContext ⟨b2, ys⟩ schCtx errs = some errs) ∧
    (∀ zs, List.Perm xs zs →
        (TypeKeyword.ValidateFromContext ⟨b, xs⟩ schCtx errs = some errs ↔
          TypeKeyword.ValidateFromContext ⟨b, zs⟩ schCtx errs = some errs)) ∧
    (∀ z, TypeKeyword.ValidateFromContext ⟨b, xs⟩ schCtx errs = some errs →
        TypeKeyword.ValidateFromContext ⟨b, z :: xs⟩ schCtx errs = some errs ∧
        TypeKeyword.ValidateFromContext ⟨b, xs ++ [z]⟩ schCtx errs = some errs) := by
  simp only [Type_passes_iff, Type_validateLoop_iff]
  refine ⟨?_, ?_, ?_⟩
  · constructor
    · rintro ⟨t, ht, h⟩
      rcases List.mem_append.1 ht with h1 | h1
      · exact Or.inl ⟨t, h1, h⟩
      · exact Or.inr ⟨t, h1, h⟩
    · rintro (⟨t, ht, h⟩ | ⟨t, ht, h⟩)
      · exact ⟨t, List.mem_append.2 (Or.inl ht), h⟩
      · exact ⟨t, List.mem_append.2 (Or.inr ht), h⟩
  · intro zs hperm
    constructor
    · rintro ⟨t, ht, h⟩
      exact ⟨t, hperm.mem_iff.1 ht, h⟩
    · rintro ⟨t, ht, h⟩
      exact ⟨t, hperm.mem_iff.2 ht, h⟩
  · rintro z ⟨t, ht, h⟩
    exact ⟨⟨t, List.mem_cons_of_mem _ ht, h⟩, ⟨t, List.mem_append.2 (Or.inl ht), h⟩⟩

/-! ## The hint -/

theorem DataType_eq_string_iff (d : Value) : DataType d = "string" ↔ ∃ s, d = Value.str s := by
  constructor
  · intro h
    by_contra hc
    exact DataType_ne_string d (fun s hs => hc ⟨s, hs⟩) h
  · rintro ⟨s, rfl⟩
    rfl

/-- C16: `DataTypeWithHint(d, h)` is `boolean` when `d` is a string that parses
as a boolean literal and `h` is `boolean`; it is `number` when `DataType(d)` is
`integer` and `h` is `number`; it is `DataType(d)` in every other case; so it is
always `h` or `DataType(d)`. -/
theorem C16_DataTypeWithHint_cases (d : Value) (h : String) :
    (∀ s, d = Value.str s → (ParseBool s).isSome = true → h = "boolean" →
        DataTypeWithHint d h = "boolean") ∧
    (DataType d = "integer" → h = "number" → DataTypeWithHint d h = "number") ∧
    ((¬ ∃ s, d = Value.str s ∧ (ParseBool s).isSome = true ∧ h = "boolean") →
      ¬ (DataType d = "integer" ∧ h = "number") → DataTypeWithHint d h = DataType d) ∧
    (DataTypeWithHint d h = h ∨ DataTypeWithHint d h = DataType d) := by
  refine ⟨?_, ?_, ?_, ?_⟩
  · rintro s rfl hp hb
    rw [DataTypeWithHint_str, if_pos ⟨hb, hp⟩]
  · intro hi hn
    unfold DataTypeWithHint
    simp only []
    rw [if_neg (by rw [hi]; intro hc; exact absurd hc.1 (by decide)), if_pos ⟨hi, hn⟩]
  · intro h1 h2
    unfold DataTypeWithHint
    simp only []
    have hnot : ¬ (DataType d = "string" ∧ h = "boolean" ∧
        (ParseBool d.asString).isSome = true) := by
      rintro ⟨hs, hb, hp⟩
      obtain ⟨s, rfl⟩ := (DataType_eq_string_iff d).1 hs
      exact h1 ⟨s, rfl, hp, hb⟩
    rw [if_neg hnot, if_neg h2]
  · unfold DataTypeWithHint
    simp only []
    split
    · rename_i hc
      exact Or.inl hc.2.1.symm
    · split
      · rename_i hc
        exact Or.inl hc.2.symm
      · exact Or.inr rfl

/-! ## Frame of the three keywords -/

theorem Enum_String_nil : Enum.String [] = none := by decide

/-- With an empty list of constants `Enum.ValidateFromContext` panics. -/
theorem Enum_validate_nil (env : Env) (schCtx : SchemaContext) (errs : List KeyError) :
    Enum.ValidateFromContext env [] schCtx errs = none := by
  unfold Enum.ValidateFromContext
  simp [Enum.validateLoop, Enum_String_nil]

/-- The two outcomes of `Enum.ValidateFromContext` for a non-empty list. -/
theorem Enum_validate_cons (env : Env) (c : Const) (rest : List Const) (schCtx : SchemaContext)
    (errs : List KeyError) :
    Enum.ValidateFromContext env (c :: rest) schCtx errs =
      if Enum.validateLoop env schCtx (c :: rest) = true then some errs
      else some (errs ++ [{ PropertyPath := schCtx.InstanceLocation,
                            Message := "should be one of " ++
                              ("[" ++ ", ".intercalate (c :: rest) ++ "]") }]) := by
  unfold Enum.ValidateFromContext
  rw [Enum_String_cons]
  rfl

/-- `Const.ValidateFromContext` always returns, and returns the given errors,
in order, followed by zero or one new error. -/
theorem Const_validate_frame (env : Env) (c : Const) (schCtx : SchemaContext)
    (E : List KeyError) :
    Const.ValidateFromContext env c schCtx E = E ∨
      ∃ k, Const.ValidateFromContext env c schCtx E = E ++ [k] := by
  unfold Const.ValidateFromContext
  cases env.jsonUnmarshal c with
  | error err => exact Or.inr ⟨_, rfl⟩
  | ok con =>
    simp only []
    split
    · exact Or.inr ⟨_, rfl⟩
    · exact Or.inl rfl

/-- Whenever `Enum.ValidateFromContext` or `Type.ValidateFromContext` returns,
it returns the given errors, in order, followed by zero or one new error; both
return for every non-empty list. -/
theorem Enum_Type_validate_frame (env : Env) (e : Enum) (t : TypeKeyword)
    (schCtx : SchemaContext) (E : List KeyError) :
    (∀ r, Enum.ValidateFromContext env e schCtx E = some r → r = E ∨ ∃ k, r = E ++ [k]) ∧
    (∀ r, TypeKeyword.ValidateFromContext t schCtx E = some r → r = E ∨ ∃ k, r = E ++ [k]) ∧
    (e ≠ [] → ∃ r, Enum.ValidateFromContext env e schCtx E = some r) ∧
    (t.vals ≠ [] → ∃ r, TypeKeyword.ValidateFromContext t schCtx E = some r) := by
  refine ⟨?_, ?_, ?_, ?_⟩
  · cases e with
    | nil =>
      rw [Enum_validate_nil]
      intro r h
      cases h
    | cons c0 rest =>
      rw [Enum_validate_cons]
      split
      · intro r h; cases h; exact Or.inl rfl
      · intro r h; cases h; exact Or.inr ⟨_, rfl⟩
  · obtain ⟨b, vals⟩ := t
    cases vals with
    | nil =>
      rw [Type_validate_nil]
      intro r h
      cases h
    | cons x rest =>
      rw [Type_validate_cons]
      split
      · intro r h; cases h; exact Or.inl rfl
      · split
        · intro r h; cases h; exact Or.inr ⟨_, rfl⟩
        · intro r h; cases h; exact Or.inr ⟨_, rfl⟩
  · intro hne
    cases e with
    | nil => exact absurd rfl hne
    | cons c0 rest =>
      rw [Enum_validate_cons]
      split
      · exact ⟨_, rfl⟩
      · exact ⟨_, rfl⟩
  · intro hne
    obtain ⟨b, vals⟩ := t
    cases vals with
    | nil => exact absurd rfl hne
    | cons x rest =>
      rw [Type_validate_cons]
      split
      · exact ⟨_, rfl⟩
      · split
        · exact ⟨_, rfl⟩
        · exact ⟨_, rfl⟩

/-- C17: the declaration `[]` is accepted by `Type.UnmarshalJSON` and then
`Type.ValidateFromContext` panics on every instance: the slice
`str[:len(str)-1]` is taken of the empty string. -/
theorem C17_type_empty_set_panics :
    TypeKeyword.UnmarshalJSON sampleEnv ⟨false, []⟩ "[]" = (⟨false, []⟩, none) ∧
    goSliceTo "" (goLen "" - 1) = none ∧
    ∀ (schCtx : SchemaContext) (errs : List KeyError),
      TypeKeyword.ValidateFromContext (TypeKeyword.UnmarshalJSON sampleEnv ⟨false, []⟩ "[]").1
        schCtx errs = none := by
  refine ⟨by decide, by decide, ?_⟩
  intro schCtx errs
  have h : (TypeKeyword.UnmarshalJSON sampleEnv ⟨false, []⟩ "[]").1 = ⟨false, []⟩ := by decide
  rw [h]
  exact Type_validate_nil false schCtx errs

/-- A Type with at least one name never panics in validation and appends at most
one error. -/
theorem Type_validate_nonempty_total (t : TypeKeyword) (schCtx : SchemaContext)
    (errs : List KeyError) (hne : t.vals ≠ []) :
    TypeKeyword.ValidateFromContext t schCtx errs = some errs ∨
      ∃ k, TypeKeyword.ValidateFromContext t schCtx errs = some (errs ++ [k]) := by
  obtain ⟨b, vals⟩ := t
  cases vals with
  | nil => exact absurd rfl hne
  | cons x rest =>
    rw [Type_validate_cons]
    split
    · exact Or.inl rfl
    · split
      · exact Or.inr ⟨_, rfl⟩
      · exact Or.inr ⟨_, rfl⟩

/-- C18: for the empty enum list `Enum.String` panics, the slice
`str[:len(str)-2]` being taken of the one-byte string `[`, and so does
`Enum.ValidateFromContext` on every instance, instead of appending an error. -/
theorem C18_enum_empty_list_panics :
    Enum.String [] = none ∧
    goSliceTo "[" (goLen "[" - 2) = none ∧
    ∀ (env : Env) (schCtx : SchemaContext) (errs : List KeyError),
      Enum.ValidateFromContext env [] schCtx errs = none :=
  ⟨by decide, by decide, fun env schCtx errs => Enum_validate_nil env schCtx errs⟩

/-- An enum with at least one constant never panics: `Enum.String` returns and
validation appends at most one error. -/
theorem Enum_nonempty_total (env : Env) (e : Enum) (schCtx : SchemaContext)
    (errs : List KeyError) (hne : e ≠ []) :
    (∃ s, Enum.String e = some s) ∧
    (Enum.ValidateFromContext env e schCtx errs = some errs ∨
      ∃ k, Enum.ValidateFromContext env e schCtx errs = some (errs ++ [k])) := by
  cases e with
  | nil => exact absurd rfl hne
  | cons c rest =>
    refine ⟨⟨_, Enum_String_cons c rest⟩, ?_⟩
    rw [Enum_validate_cons]
    split
    · exact Or.inl rfl
    · exact Or.inr ⟨_, rfl⟩

/-! ## JSONProp -/

theorem goIndex_lt {α : Type} (xs : List α) (i : Nat) (h : i < xs.length) :
    goIndex xs (i : Int) = some (xs.get ⟨i, h⟩) := by
  unfold goIndex
  have h2 : (0 : Int) ≤ (i : Int) ∧ (i : Int) < (xs.length : Int) := ⟨by omega, by omega⟩
  rw [if_pos h2]
  simp [List.getElem?_eq_getElem h]

theorem goIndex_length {α : Type} (xs : List α) : goIndex xs (xs.length : Int) = none := by
  unfold goIndex
  rw [if_neg (by omega)]

/-- The three behaviours of `Enum.JSONProp` in terms of the index `strconv.Atoi`
reads from the name: a constant for an index below the length, a panic for the
index equal to the length, `nil` for every other index and for a name that is
not an integer. -/
theorem Enum_JSONProp_cases (e : Enum) (name : String) :
    (Atoi name = none → Enum.JSONProp e name = some none) ∧
    (∀ i : Nat, Atoi name = some (i : Int) → ∀ h : i < e.length,
        Enum.JSONProp e name = some (some (e.get ⟨i, h⟩))) ∧
    (Atoi name = some (e.length : Int) → Enum.JSONProp e name = none) ∧
    (∀ idx : Int, Atoi name = some idx → (idx < 0 ∨ (e.length : Int) < idx) →
        Enum.JSONProp e name = some none) := by
  refine ⟨?_, ?_, ?_, ?_⟩
  · intro h
    unfold Enum.JSONProp
    rw [h]
  · intro i h hi
    unfold Enum.JSONProp
    rw [h]
    simp only []
    rw [if_neg (by omega), goIndex_lt e i hi]
    rfl
  · intro h
    unfold Enum.JSONProp
    rw [h]
    simp only []
    rw [if_neg (by omega), goIndex_length]
    rfl
  · intro idx h hr
    unfold Enum.JSONProp
    rw [h]
    simp only []
    rw [if_pos (by omega)]

/-- The same three behaviours for `Type.JSONProp`. -/
theorem Type_JSONProp_cases (t : TypeKeyword) (name : String) :
    (Atoi name = none → TypeKeyword.JSONProp t name = some none) ∧
    (∀ i : Nat, Atoi name = some (i : Int) → ∀ h : i < t.vals.length,
        TypeKeyword.JSONProp t name = some (some (t.vals.get ⟨i, h⟩))) ∧
    (Atoi name = some (t.vals.length : Int) → TypeKeyword.JSONProp t name = none) ∧
    (∀ idx : Int, Atoi name = some idx → (idx < 0 ∨ (t.vals.length : Int) < idx) →
        TypeKeyword.JSONProp t name = some none) := by
  refine ⟨?_, ?_, ?_, ?_⟩
  · intro h
    unfold TypeKeyword.JSONProp
    rw [h]
  · intro i h hi
    unfold TypeKeyword.JSONProp
    rw [h]
    simp only []
    rw [if_neg (by omega), goIndex_lt t.vals i hi]
    rfl
  · intro h
    unfold TypeKeyword.JSONProp
    rw [h]
    simp only []
    rw [if_neg (by omega), goIndex_length]
    rfl
  · intro idx h hr
    unfold TypeKeyword.JSONProp
    rw [h]
    simp only []
    rw [if_pos (by omega)]

/-- C19: for the name `1`, the numeral of the length of a one-element list,
`Enum.JSONProp` and `Type.JSONProp` index out of range instead of returning
`nil`: the guard reads `idx > len` where `idx >= len` is needed. The names `0`
and `2` behave as expected. -/
theorem C19_JSONProp_index_at_length_panics :
    Atoi "1" = some 1 ∧
    Enum.JSONProp ["\"a\""] "1" = none ∧
    TypeKeyword.JSONProp ⟨true, ["string"]⟩ "1" = none ∧
    Enum.JSONProp ["\"a\""] "0" = some (some "\"a\"") ∧
    Enum.JSONProp ["\"a\""] "2" = some none ∧
    Enum.JSONProp [] "0" = none := by
  refine ⟨by decide, by decide, by decide, by decide, by decide, by decide⟩

/-! ## Round trip of const and enum -/

theorem compactChars_false_esc (esc : Bool) (cs : List Char) :
    compactChars false esc cs = compactChars false false cs := by
  cases cs <;> cases esc <;> rfl

theorem htmlEscape_of_plain (c : Char) (h1 : c ≠ '<') (h2 : c ≠ '>') (h3 : c ≠ '&')
    (h4 : c ≠ Char.ofNat 0x2028) (h5 : c ≠ Char.ofNat 0x2029) : htmlEscape c = [c] := by
  unfold htmlEscape
  rw [if_neg h1, if_neg h2, if_neg h3, if_neg h4, if_neg h5]

/-- Outside a string, the text written for a character that is neither white
space nor a quote is copied unchanged by a second compaction. -/
theorem compactChars_out_escape (c : Char) (rest : List Char)
    (hws : ¬ (c = ' ' ∨ c = Char.ofNat 9 ∨ c = Char.ofNat 10 ∨ c = Char.ofNat 13))
    (hq : c ≠ Char.ofNat 34) :
    compactChars false false (htmlEscape c ++ rest) =
      htmlEscape c ++ compactChars false false rest := by
  by_cases h1 : c = '<'
  · subst h1; rfl
  by_cases h2 : c = '>'
  · subst h2; rfl
  by_cases h3 : c = '&'
  · subst h3; rfl
  by_cases h4 : c = Char.ofNat 0x2028
  · subst h4; rfl
  by_cases h5 : c = Char.ofNat 0x2029
  · subst h5; rfl
  rw [htmlEscape_of_plain c h1 h2 h3 h4 h5]
  simp only [List.singleton_append, compactChars]
  rw [if_neg hws, if_neg hq, htmlEscape_of_plain c h1 h2 h3 h4 h5]
  rfl

/-- Right after a backslash inside a string, the text written for a character
is copied unchanged by a second compaction. -/
theorem compactChars_esc_escape (c : Char) (rest : List Char) :
    compactChars true true (htmlEscape c ++ rest) =
      htmlEscape c ++ compactChars true false rest := by
  by_cases h1 : c = '<'
  · subst h1; rfl
  by_cases h2 : c = '>'
  · subst h2; rfl
  by_cases h3 : c = '&'
  · subst h3; rfl
  by_cases h4 : c = Char.ofNat 0x2028
  · subst h4; rfl
  by_cases h5 : c = Char.ofNat 0x2029
  · subst h5; rfl
  rw [htmlEscape_of_plain c h1 h2 h3 h4 h5]
  simp only [List.singleton_append, compactChars]
  rw [htmlEscape_of_plain c h1 h2 h3 h4 h5]
  rfl

/-- Inside a string, the text written for a character that is neither a
backslash nor a quote is copied unchanged by a second compaction. -/
theorem compactChars_in_escape (c : Char) (rest : List Char)
    (hb : c ≠ Char.ofNat 92) (hq : c ≠ Char.ofNat 34) :
    compactChars true false (htmlEscape c ++ rest) =
      htmlEscape c ++ compactChars true false rest := by
  by_cases h1 : c = '<'
  · subst h1; rfl
  by_cases h2 : c = '>'
  · subst h2; rfl
  by_cases h3 : c = '&'
  · subst h3; rfl
  by_cases h4 : c = Char.ofNat 0x2028
  · subst h4; rfl
  by_cases h5 : c = Char.ofNat 0x2029
  · subst h5; rfl
  rw [htmlEscape_of_plain c h1 h2 h3 h4 h5]
  simp only [List.singleton_append, compactChars]
  rw [if_neg hb, if_neg hq, htmlEscape_of_plain c h1 h2 h3 h4 h5]
  rfl

/-- Compaction is idempotent: a compact text is left as it is. -/
theorem compactChars_idem (cs : List Char) (inStr esc : Bool) :
    compactChars inStr esc (compactChars inStr esc cs) = compactChars inStr esc cs := by
  induction cs generalizing inStr esc with
  | nil => cases inStr <;> cases esc <;> rfl
  | cons c cs ih =>
    cases inStr with
    | false =>
      rw [compactChars_false_esc esc (c :: cs), compactChars_false_esc esc]
      simp only [compactChars]
      by_cases hws : c = ' ' ∨ c = Char.ofNat 9 ∨ c = Char.ofNat 10 ∨ c = Char.ofNat 13
      · rw [if_pos hws]
        exact ih false false
      · rw [if_neg hws]
        by_cases hq : c = Char.ofNat 34
        · rw [if_pos hq]
          subst hq
          simp only [compactChars]
          rw [if_pos trivial, ih true false, if_neg hws]
        · rw [if_neg hq, compactChars_out_escape c _ hws hq, ih false false]
    | true =>
      cases esc with
      | true =>
        simp only [compactChars]
        rw [compactChars_esc_escape, ih true false]
      | false =>
        simp only [compactChars]
        by_cases hb : c = Char.ofNat 92
        · rw [if_pos hb]
          subst hb
          simp only [compactChars]
          rw [if_pos trivial, ih true true]
        · rw [if_neg hb]
          by_cases hq : c = Char.ofNat 34
          · rw [if_pos hq]
            subst hq
            simp only [compactChars]
            rw [if_pos trivial, ih false false, if_neg hb]
          · rw [if_neg hq, compactChars_in_escape c _ hb hq, ih true false]

theorem jsonCompact_idem (raw : RawMessage) : jsonCompact (jsonCompact raw) = jsonCompact raw := by
  unfold jsonCompact
  rw [compactChars_idem]

theorem Const_roundTrip_valid (valid : RawMessage → Bool) (c : Const) (hv : valid c = true) :
    Const.roundTrip valid c = some (jsonCompact c) := by
  unfold Const.roundTrip Const.MarshalJSON jsonMarshalRaw
  rw [if_pos hv]
  rfl

theorem Enum_roundTrip_valid (valid : RawMessage → Bool) (e : Enum)
    (hv : ∀ c ∈ e, valid c = true) : Enum.roundTrip valid e = some (e.map jsonCompact) := by
  induction e with
  | nil => rfl
  | cons c rest ih =>
    unfold Enum.roundTrip
    rw [Const_roundTrip_valid valid c (hv c (List.mem_cons_self _ _)),
      ih (fun d hd => hv d (List.mem_cons_of_mem _ hd))]
    rfl

/-- C12 fails as stated: the valid constant `[1, 2]` comes back from
`MarshalJSON` followed by `UnmarshalJSON` as `[1,2]`, and the valid constant
`"<"` comes back with the character escaped; the bytes differ from the
original ones, also inside an enum. -/
theorem C12_round_trip_changes_bytes :
    sampleValid "[1, 2]" = true ∧
    Const.MarshalJSON sampleValid "[1, 2]" = .ok "[1,2]" ∧
    Const.UnmarshalJSON "" "[1,2]" = ("[1,2]", none) ∧
    Const.roundTrip sampleValid "[1, 2]" = some "[1,2]" ∧
    Const.roundTrip sampleValid "[1, 2]" ≠ some "[1, 2]" ∧
    Const.roundTrip sampleValid "\"<\"" = some "\"\\u003c\"" ∧
    Enum.roundTrip sampleValid ["1", "[1, 2]"] = some ["1", "[1,2]"] := by
  refine ⟨by decide, rfl, by decide, by decide, by decide, by decide, by decide⟩

/-- C12 as amended: for a constant holding a valid JSON text, serializing with
`Const.MarshalJSON` and parsing the result with `Const.UnmarshalJSON` yields the
compact form of the text; the bytes are those of the original exactly when the
original is already compact, and the compact form itself round-trips byte for
byte. For an enum the same holds element by element, with the same length and
order. -/
theorem C12_round_trip_compact (valid : RawMessage → Bool) (c : Const) (e : Enum)
    (hc : valid c = true) (he : ∀ d ∈ e, valid d = true) :
    Const.roundTrip valid c = some (jsonCompact c) ∧
    (Const.roundTrip valid c = some c ↔ jsonCompact c = c) ∧
    (valid (jsonCompact c) = true →
        Const.roundTrip valid (jsonCompact c) = some (jsonCompact c)) ∧
    Enum.roundTrip valid e = some (e.map jsonCompact) ∧
    (e.map jsonCompact).length = e.length := by
  have h1 := Const_roundTrip_valid valid c hc
  refine ⟨h1, ?_, ?_, Enum_roundTrip_valid valid e he, List.length_map _ _⟩
  · rw [h1]
    constructor
    · intro h
      exact Option.some.inj h
    · intro h
      rw [h]
  · intro hv
    rw [Const_roundTrip_valid valid _ hv, jsonCompact_idem]

/-- C12 as amended, at the constant `[1, 2]` and the enum `1`, `[1, 2]`. -/
theorem C12_round_trip_compact_witness :
    Const.roundTrip sampleValid "[1, 2]" = some (jsonCompact "[1, 2]") ∧
    (Const.roundTrip sampleValid "[1, 2]" = some "[1, 2]" ↔ jsonCompact "[1, 2]" = "[1, 2]") ∧
    (sampleValid (jsonCompact "[1, 2]") = true →
        Const.roundTrip sampleValid (jsonCompact "[1, 2]") = some (jsonCompact "[1, 2]")) ∧
    Enum.roundTrip sampleValid ["1", "[1, 2]"] = some (["1", "[1, 2]"].map jsonCompact) ∧
    (["1", "[1, 2]"].map jsonCompact).length = ["1", "[1, 2]"].length :=
  C12_round_trip_compact sampleValid "[1, 2]" ["1", "[1, 2]"] (by decide) (by decide)

/-! ## Round trip of type -/

/-- The shape of a Type that `Type.UnmarshalJSON` returned without error. -/
theorem Type_UnmarshalJSON_ok_shape (env : Env) (t0 t : TypeKeyword) (data : RawMessage)
    (hparse : TypeKeyword.UnmarshalJSON env t0 data = (t, none)) :
    TypeKeyword.checkVals t.vals = none ∧
      ((∃ name, t = ⟨true, [name]⟩) ∨ t.strVal = false) := by
  unfold TypeKeyword.UnmarshalJSON at hparse
  cases h1 : env.unmarshalString data "" with
  | ok single =>
    rw [h1] at hparse
    simp only [Prod.mk.injEq] at hparse
    obtain ⟨ht, hc⟩ := hparse
    subst ht
    exact ⟨hc, Or.inl ⟨single, rfl⟩⟩
  | error e1 =>
    rw [h1] at hparse
    cases h2 : env.unmarshalStrings data with
    | ok set =>
      rw [h2] at hparse
      simp only [Prod.mk.injEq] at hparse
      obtain ⟨ht, hc⟩ := hparse
      subst ht
      exact ⟨hc, Or.inr rfl⟩
    | error e2 =>
      rw [h2] at hparse
      simp at hparse

theorem checkVals_cons_none (pr : String) (rest : List String)
    (h : TypeKeyword.checkVals (pr :: rest) = none) :
    primitiveTypes pr = true ∧ TypeKeyword.checkVals rest = none := by
  unfold TypeKeyword.checkVals at h
  by_cases hp : primitiveTypes pr = true
  · simp [hp] at h
    exact ⟨hp, h⟩
  · have hp2 : primitiveTypes pr = false := by simpa using hp
    simp [hp2] at h

/-- An array that `json.Unmarshal` stores into a `[]string` whose names all pass
the vocabulary check consists of strings only, the stored names in order. -/
theorem mapM_unmarshalStringElem_ok (xs : List Value) (set : List String)
    (h : xs.mapM unmarshalStringElem = .ok set)
    (hc : TypeKeyword.checkVals set = none) : xs = set.map Value.str := by
  induction xs generalizing set with
  | nil =>
    have h2 : (Except.ok [] : Except String (List String)) = .ok set := h
    cases h2
    rfl
  | cons x xs ih =>
    rw [List.mapM_cons] at h
    cases hx : unmarshalStringElem x with
    | error e =>
      rw [hx] at h
      cases h
    | ok s =>
      rw [hx] at h
      cases hr : xs.mapM unmarshalStringElem with
      | error e =>
        rw [hr] at h
        cases h
      | ok ys =>
        rw [hr] at h
        have h2 : (Except.ok (s :: ys) : Except String (List String)) = .ok set := h
        cases h2
        obtain ⟨hp, hrest⟩ := checkVals_cons_none s ys hc
        have hxs := ih ys hr hrest
        cases x with
        | str s2 =>
          have : s2 = s := by
            have h3 : (Except.ok s2 : Except String String) = .ok s := hx
            cases h3
            rfl
          subst this
          rw [hxs]
          rfl
        | null =>
          have : s = "" := by
            have h3 : (Except.ok "" : Except String String) = .ok s := hx
            cases h3
            rfl
          subst this
          exact absurd hp (by decide)
        | bool b => cases hx
        | num f => cases hx
        | arr zs => cases hx
        | obj kvs => cases hx

/-- What a successful `Type.UnmarshalJSON` has read: either the input decodes to
a JSON string and the Type holds that one name with the string form set, or the
input decodes to a JSON array of strings and the Type holds those names, in
order, with the string form not set. -/
theorem Type_UnmarshalJSON_ok_decl (env : Env) (t0 t : TypeKeyword) (data : RawMessage)
    (hparse : TypeKeyword.UnmarshalJSON env t0 data = (t, none)) :
    (∃ name, env.jsonUnmarshal data = .ok (Value.str name) ∧ t = ⟨true, [name]⟩) ∨
    (∃ names, env.jsonUnmarshal data = .ok (Value.arr (names.map Value.str)) ∧
      t = ⟨false, names⟩) := by
  cases hd : env.jsonUnmarshal data with
  | error e =>
    have h1 : env.unmarshalString data "" = .error e := by
      unfold Env.unmarshalString; rw [hd]
    have h2 : env.unmarshalStrings data = .error e := by
      unfold Env.unmarshalStrings; rw [hd]
    unfold TypeKeyword.UnmarshalJSON at hparse
    rw [h1, h2] at hparse
    simp at hparse
  | ok v =>
    cases v with
    | str name =>
      rw [Type_UnmarshalJSON_single env t0 data name hd] at hparse
      simp only [Prod.mk.injEq] at hparse
      exact Or.inl ⟨name, rfl, hparse.1.symm⟩
    | null =>
      have h1 : env.unmarshalString data "" = .ok "" := by
        unfold Env.unmarshalString; rw [hd]
      unfold TypeKeyword.UnmarshalJSON at hparse
      rw [h1] at hparse
      simp only [Prod.mk.injEq] at hparse
      have hbad : TypeKeyword.checkVals [""] ≠ none := by decide
      exact absurd hparse.2 hbad
    | arr xs =>
      have h1 := unmarshalString_arr env data xs "" hd
      have h2 := unmarshalStrings_arr env data xs hd
      unfold TypeKeyword.UnmarshalJSON at hparse
      rw [h1, h2] at hparse
      cases hm : xs.mapM unmarshalStringElem with
      | error e =>
        rw [hm] at hparse
        simp at hparse
      | ok set =>
        rw [hm] at hparse
        simp only [Prod.mk.injEq] at hparse
        have hxs := mapM_unmarshalStringElem_ok xs set hm hparse.2
        refine Or.inr ⟨set, ?_, hparse.1.symm⟩
        rw [hxs]
    | bool b =>
      have h1 : env.unmarshalString data "" =
          .error "json: cannot unmarshal into Go value of type string" := by
        unfold Env.unmarshalString; rw [hd]
      have h2 : env.unmarshalStrings data =
          .error "json: cannot unmarshal into Go value of type []string" := by
        unfold Env.unmarshalStrings; rw [hd]
      unfold TypeKeyword.UnmarshalJSON at hparse
      rw [h1, h2] at hparse
      simp at hparse
    | num f =>
      have h1 : env.unmarshalString data "" =
          .error "json: cannot unmarshal into Go value of type string" := by
        unfold Env.unmarshalString; rw [hd]
      have h2 : env.unmarshalStrings data =
          .error "json: cannot unmarshal into Go value of type []string" := by
        unfold Env.unmarshalStrings; rw [hd]
      unfold TypeKeyword.UnmarshalJSON at hparse
      rw [h1, h2] at hparse
      simp at hparse
    | obj kvs =>
      have h1 : env.unmarshalString data "" =
          .error "json: cannot unmarshal into Go value of type string" := by
        unfold Env.unmarshalString; rw [hd]
      have h2 : env.unmarshalStrings data =
          .error "json: cannot unmarshal into Go value of type []string" := by
        unfold Env.unmarshalStrings; rw [hd]
      unfold TypeKeyword.UnmarshalJSON at hparse
      rw [h1, h2] at hparse
      simp at hparse

/-- C13: a Type that `Type.UnmarshalJSON` produced without error round-trips.
The input was either a JSON string, and then `Type.MarshalJSON` hands
`json.Marshal` that same string value, or a JSON array of strings, and then it
hands `json.Marshal` that same array value: a declaration written as a single
string is written back as a string, one written as an array is written back as
an array, in both cases the value the input decoded to. `MarshalJSON` does not
panic, and, the library decoding what it encoded, `Type.UnmarshalJSON` on the
output succeeds and yields the same Type: the same names in the same order and
the same string-or-array form. -/
theorem C13_type_round_trip (env : Env) (jsonMarshal : Value → RawMessage)
    (t0 t : TypeKeyword) (data : RawMessage)
    (hparse : TypeKeyword.UnmarshalJSON env t0 data = (t, none))
    (hlib : env.jsonUnmarshal (jsonMarshal t.jsonValue) = .ok t.jsonValue) :
    ((∃ name, env.jsonUnmarshal data = .ok (Value.str name) ∧ t = ⟨true, [name]⟩ ∧
        TypeKeyword.MarshalJSON jsonMarshal t = some (jsonMarshal (Value.str name))) ∨
     (∃ names, env.jsonUnmarshal data = .ok (Value.arr (names.map Value.str)) ∧
        t = ⟨false, names⟩ ∧
        TypeKeyword.MarshalJSON jsonMarshal t =
          some (jsonMarshal (Value.arr (names.map Value.str))))) ∧
    env.jsonUnmarshal data = .ok t.jsonValue ∧
    TypeKeyword.MarshalJSON jsonMarshal t = some (jsonMarshal t.jsonValue) ∧
    env.jsonUnmarshal (jsonMarshal t.jsonValue) = env.jsonUnmarshal data ∧
    (t.strVal = true → ∃ name, t.jsonValue = Value.str name ∧ t.vals = [name]) ∧
    (t.strVal = false → t.jsonValue = Value.arr (t.vals.map Value.str)) ∧
    (∀ t1, TypeKeyword.UnmarshalJSON env t1 (jsonMarshal t.jsonValue) = (t, none)) := by
  obtain ⟨hcheck, _⟩ := Type_UnmarshalJSON_ok_shape env t0 t data hparse
  rcases Type_UnmarshalJSON_ok_decl env t0 t data hparse with ⟨name, hd, rfl⟩ | ⟨names, hd, rfl⟩
  · have hv : (TypeKeyword.mk true [name]).jsonValue = Value.str name := rfl
    rw [hv] at hlib ⊢
    refine ⟨Or.inl ⟨name, hd, rfl, rfl⟩, hd, rfl, ?_, fun _ => ⟨name, rfl, rfl⟩,
      fun h => by simp at h, ?_⟩
    · rw [hlib, hd]
    · intro t1
      rw [Type_UnmarshalJSON_single env t1 _ name hlib]
      exact Prod.ext rfl hcheck
  · have hv : (TypeKeyword.mk false names).jsonValue = Value.arr (names.map Value.str) := rfl
    rw [hv] at hlib ⊢
    refine ⟨Or.inr ⟨names, hd, rfl, rfl⟩, hd, rfl, ?_, fun h => by simp at h, fun _ => rfl, ?_⟩
    · rw [hlib, hd]
    · intro t1
      rw [Type_UnmarshalJSON_set env t1 _ names hlib]
      exact Prod.ext rfl hcheck

/-- C13 at the declaration `"boolean"`, written as a single string. -/
theorem C13_type_round_trip_witness :
    ((∃ name, sampleEnv.jsonUnmarshal "\"boolean\"" = .ok (Value.str name) ∧
        TypeKeyword.mk true ["boolean"] = ⟨true, [name]⟩ ∧
        TypeKeyword.MarshalJSON sampleMarshal ⟨true, ["boolean"]⟩ =
          some (sampleMarshal (Value.str name))) ∨
     (∃ names, sampleEnv.jsonUnmarshal "\"boolean\"" = .ok (Value.arr (names.map Value.str)) ∧
        TypeKeyword.mk true ["boolean"] = ⟨false, names⟩ ∧
        TypeKeyword.MarshalJSON sampleMarshal ⟨true, ["boolean"]⟩ =
          some (sampleMarshal (Value.arr (names.map Value.str))))) ∧
    sampleEnv.jsonUnmarshal "\"boolean\"" = .ok (TypeKeyword.mk true ["boolean"]).jsonValue ∧
    TypeKeyword.MarshalJSON sampleMarshal ⟨true, ["boolean"]⟩ =
      some (sampleMarshal (TypeKeyword.mk true ["boolean"]).jsonValue) ∧
    sampleEnv.jsonUnmarshal (sampleMarshal (TypeKeyword.mk true ["boolean"]).jsonValue) =
      sampleEnv.jsonUnmarshal "\"boolean\"" ∧
    ((TypeKeyword.mk true ["boolean"]).strVal = true →
      ∃ name, (TypeKeyword.mk true ["boolean"]).jsonValue = Value.str name ∧
        (TypeKeyword.mk true ["boolean"]).vals = [name]) ∧
    ((TypeKeyword.mk true ["boolean"]).strVal = false →
      (TypeKeyword.mk true ["boolean"]).jsonValue =
        Value.arr ((TypeKeyword.mk true ["boolean"]).vals.map Value.str)) ∧
    (∀ t1, TypeKeyword.UnmarshalJSON sampleEnv t1
        (sampleMarshal (TypeKeyword.mk true ["boolean"]).jsonValue) =
      (⟨true, ["boolean"]⟩, none)) :=
  C13_type_round_trip sampleEnv sampleMarshal ⟨false, []⟩ ⟨true, ["boolean"]⟩
    "\"boolean\"" (by decide) rfl

/-- The round trip of C13 evaluated on both forms: the string `"boolean"` is
written back as the string `"boolean"`, the array `["null", "string"]` is
written back as an array, and parsing the output gives the same Type. -/
theorem Type_round_trip_both_forms :
    (TypeKeyword.UnmarshalJSON sampleEnv ⟨false, []⟩ "\"boolean\"").1 = ⟨true, ["boolean"]⟩ ∧
    TypeKeyword.MarshalJSON sampleMarshal ⟨true, ["boolean"]⟩ = some "\"boolean\"" ∧
    TypeKeyword.UnmarshalJSON sampleEnv ⟨false, []⟩ "\"boolean\"" =
      (⟨true, ["boolean"]⟩, none) ∧
    (TypeKeyword.UnmarshalJSON sampleEnv ⟨true, []⟩ "[\"null\", \"string\"]").1 =
      ⟨false, ["null", "string"]⟩ ∧
    TypeKeyword.MarshalJSON sampleMarshal ⟨false, ["null", "string"]⟩ =
      some "[\"null\",\"string\"]" ∧
    TypeKeyword.UnmarshalJSON sampleEnv ⟨true, []⟩ "[\"null\",\"string\"]" =
      (⟨false, ["null", "string"]⟩, none) := by
  refine ⟨by decide, by decide, by decide, by decide, by decide, by decide⟩

/-! ## Loader registry -/

theorem Copy_fst_cells {L : Type} (st : RegistryStore L) (r : Nat) (m : LoaderLookup L)
    (hm : st.cells[r]? = some m) :
    (LoaderRegistry.Copy st r).1.cells = st.cells ++ [m] ∧
      (LoaderRegistry.Copy st r).2 = st.cells.length := by
  unfold LoaderRegistry.Copy
  rw [hm]
  exact ⟨rfl, rfl⟩

theorem Get_of_cell {L : Type} (st : RegistryStore L) (r : Nat) (m : LoaderLookup L)
    (hm : st.cells[r]? = some m) (s : String) : LoaderRegistry.Get st r s = m s := by
  unfold LoaderRegistry.Get
  rw [hm]

theorem Register_cells {L : Type} (st : RegistryStore L) (r : Nat) (m : LoaderLookup L)
    (hm : st.cells[r]? = some m) (scheme : String) (fn : L) :
    (LoaderRegistry.Register st r scheme fn).cells =
      st.cells.set r (fun s => if s = scheme then some fn else m s) := by
  unfold LoaderRegistry.Register
  rw [hm]

/-- Registering on one registry changes its own entry for the scheme and
nothing else: no other scheme, no other registry. -/
theorem Get_Register {L : Type} (st : RegistryStore L) (r : Nat) (hr : r < st.cells.length)
    (scheme : String) (fn : L) (r2 : Nat) (s2 : String) :
    LoaderRegistry.Get (LoaderRegistry.Register st r scheme fn) r2 s2 =
      if r2 = r ∧ s2 = scheme then some fn else LoaderRegistry.Get st r2 s2 := by
  have hm : st.cells[r]? = some (st.cells.get ⟨r, hr⟩) := by
    simp [List.getElem?_eq_getElem hr]
  unfold LoaderRegistry.Get
  rw [Register_cells st r _ hm]
  by_cases h : r2 = r
  · subst h
    rw [List.getElem?_set_self hr, hm]
    by_cases hs : s2 = scheme
    · simp [hs]
    · simp [hs]
  · rw [List.getElem?_set_ne (fun h2 => h h2.symm)]
    simp [h]

/-- C14: a copy made by `Copy` answers `Get` like its origin for every scheme;
registering a loader under a scheme on the copy leaves every answer of the
origin unchanged, and registering on the origin after the copy leaves every
answer of the copy unchanged; `Register` overwrites the entry of its own
registry for the scheme and no other entry. -/
theorem C14_loader_registry_copy {L : Type} (st : RegistryStore L) (r : Nat) (s : String)
    (f : L) (hr : r < st.cells.length) :
    (LoaderRegistry.Copy st r).2 ≠ r ∧
    (∀ s2, LoaderRegistry.Get (LoaderRegistry.Copy st r).1 (LoaderRegistry.Copy st r).2 s2 =
        LoaderRegistry.Get st r s2) ∧
    (∀ s2, LoaderRegistry.Get (LoaderRegistry.Copy st r).1 r s2 = LoaderRegistry.Get st r s2) ∧
    (∀ s2, LoaderRegistry.Get
        (LoaderRegistry.Register (LoaderRegistry.Copy st r).1 (LoaderRegistry.Copy st r).2 s f)
        r s2 = LoaderRegistry.Get st r s2) ∧
    (∀ s2, LoaderRegistry.Get
        (LoaderRegistry.Register (LoaderRegistry.Copy st r).1 r s f)
        (LoaderRegistry.Copy st r).2 s2 = LoaderRegistry.Get st r s2) ∧
    LoaderRegistry.Get
        (LoaderRegistry.Register (LoaderRegistry.Copy st r).1 (LoaderRegistry.Copy st r).2 s f)
        (LoaderRegistry.Copy st r).2 s = some f ∧
    LoaderRegistry.Get (LoaderRegistry.Register st r s f) r s = some f ∧
    (∀ s2, s2 ≠ s →
        LoaderRegistry.Get (LoaderRegistry.Register st r s f) r s2 = LoaderRegistry.Get st r s2) := by
  have hm : st.cells[r]? = some (st.cells.get ⟨r, hr⟩) := by
    simp [List.getElem?_eq_getElem hr]
  obtain ⟨hcells, hidx⟩ := Copy_fst_cells st r _ hm
  have hne : (LoaderRegistry.Copy st r).2 ≠ r := by rw [hidx]; omega
  have hlen : (LoaderRegistry.Copy st r).1.cells.length = st.cells.length + 1 := by
    rw [hcells]; simp
  have hcopycell : (LoaderRegistry.Copy st r).1.cells[(LoaderRegistry.Copy st r).2]? =
      some (st.cells.get ⟨r, hr⟩) := by
    rw [hcells, hidx]
    simp
  have horigcell : (LoaderRegistry.Copy st r).1.cells[r]? = some (st.cells.get ⟨r, hr⟩) := by
    rw [hcells, List.getElem?_append_left hr]
    exact hm
  have hgetc : ∀ s2, LoaderRegistry.Get (LoaderRegistry.Copy st r).1
      (LoaderRegistry.Copy st r).2 s2 = LoaderRegistry.Get st r s2 := by
    intro s2
    rw [Get_of_cell _ _ _ hcopycell, Get_of_cell _ _ _ hm]
  have hgeto : ∀ s2, LoaderRegistry.Get (LoaderRegistry.Copy st r).1 r s2 =
      LoaderRegistry.Get st r s2 := by
    intro s2
    rw [Get_of_cell _ _ _ horigcell, Get_of_cell _ _ _ hm]
  have hr1 : r < (LoaderRegistry.Copy st r).1.cells.length := by rw [hlen]; omega
  have hc1 : (LoaderRegistry.Copy st r).2 < (LoaderRegistry.Copy st r).1.cells.length := by
    rw [hlen, hidx]; omega
  refine ⟨hne, hgetc, hgeto, ?_, ?_, ?_, ?_, ?_⟩
  · intro s2
    rw [Get_Register _ _ hc1, if_neg (fun h => hne h.1.symm), hgeto]
  · intro s2
    rw [Get_Register _ _ hr1, if_neg (fun h => hne h.1), hgetc]
  · rw [Get_Register _ _ hc1, if_pos ⟨rfl, rfl⟩]
  · rw [Get_Register _ _ hr, if_pos ⟨rfl, rfl⟩]
  · intro s2 hs2
    rw [Get_Register _ _ hr, if_neg (fun h => hs2 h.2)]

/-- C14 on the registry of the copy test: `dummyLoader` registered under
`dummy`, the registry copied, then `dummyLoader2` registered under `dummy`. -/
theorem C14_loader_registry_copy_witness :
    (LoaderRegistry.Copy sampleRegistryStore 0).2 ≠ 0 ∧
    (∀ s2, LoaderRegistry.Get (LoaderRegistry.Copy sampleRegistryStore 0).1
        (LoaderRegistry.Copy sampleRegistryStore 0).2 s2 =
        LoaderRegistry.Get sampleRegistryStore 0 s2) ∧
    (∀ s2, LoaderRegistry.Get (LoaderRegistry.Copy sampleRegistryStore 0).1 0 s2 =
        LoaderRegistry.Get sampleRegistryStore 0 s2) ∧
    (∀ s2, LoaderRegistry.Get
        (LoaderRegistry.Register (LoaderRegistry.Copy sampleRegistryStore 0).1
          (LoaderRegistry.Copy sampleRegistryStore 0).2 "dummy" "dummyLoader2")
        0 s2 = LoaderRegistry.Get sampleRegistryStore 0 s2) ∧
    (∀ s2, LoaderRegistry.Get
        (LoaderRegistry.Register (LoaderRegistry.Copy sampleRegistryStore 0).1 0
          "dummy" "dummyLoader2")
        (LoaderRegistry.Copy sampleRegistryStore 0).2 s2 =
        LoaderRegistry.Get sampleRegistryStore 0 s2) ∧
    LoaderRegistry.Get
        (LoaderRegistry.Register (LoaderRegistry.Copy sampleRegistryStore 0).1
          (LoaderRegistry.Copy sampleRegistryStore 0).2 "dummy" "dummyLoader2")
        (LoaderRegistry.Copy sampleRegistryStore 0).2 "dummy" = some "dummyLoader2" ∧
    LoaderRegistry.Get (LoaderRegistry.Register sampleRegistryStore 0 "dummy" "dummyLoader2")
        0 "dummy" = some "dummyLoader2" ∧
    (∀ s2, s2 ≠ "dummy" →
        LoaderRegistry.Get (LoaderRegistry.Register sampleRegistryStore 0 "dummy" "dummyLoader2")
          0 s2 = LoaderRegistry.Get sampleRegistryStore 0 s2) :=
  C14_loader_registry_copy sampleRegistryStore 0 "dummy" "dummyLoader2" (by decide)

/-- The scenario of the copy test, evaluated: after the copy registers
`dummyLoader2`, the origin still answers `dummyLoader` and the copy answers
`dummyLoader2`. -/
theorem LoaderRegistry_copy_test :
    LoaderRegistry.Get (LoaderRegistry.Copy sampleRegistryStore 0).1
        (LoaderRegistry.Copy sampleRegistryStore 0).2 "dummy" = some "dummyLoader" ∧
    LoaderRegistry.Get
        (LoaderRegistry.Register (LoaderRegistry.Copy sampleRegistryStore 0).1
          (LoaderRegistry.Copy sampleRegistryStore 0).2 "dummy" "dummyLoader2")
        0 "dummy" = some "dummyLoader" ∧
    LoaderRegistry.Get
        (LoaderRegistry.Register (LoaderRegistry.Copy sampleRegistryStore 0).1
          (LoaderRegistry.Copy sampleRegistryStore 0).2 "dummy" "dummyLoader2")
        (LoaderRegistry.Copy sampleRegistryStore 0).2 "dummy" = some "dummyLoader2" := by
  refine ⟨by decide, by decide, by decide⟩

end Jsonschema
